import Mathlib

/-!
Verification development for the OriMania convention-search engine.

The definitions below are a shallow embedding of the repository sources:

* `src/src/ParmGroup.cpp` / `src/include/ParmGroup.hpp` — sign/index
  triples, `OrderTR`, the enumeration tables, the string codecs;
* `src/src/Convention.cpp` — `ConventionOffset`, `ConventionAngle`,
  `Convention` (enumeration, numeric and string encodings, transforms);
* `src/include/Orientation.hpp` — `KeyPair`, `relativeOrientationBetweens`;
* `src/include/Combo.hpp` — `conventionROsWrtUseKey`;
* `src/include/Analysis.hpp` — the basis-RMSE scoring kernels and
  `computeMaxErrors`;
* `src/include/Rotation.hpp` — `opkFrom`.

C++ `double` values are embedded as exact real numbers (`ℝ`); `int64_t`
as `ℤ`; `std::string` sensor keys as `String`; the small fixed-width
sign/index bytes as `ℤ`/`ℕ` together with a canonicity predicate that
captures the value ranges the program actually produces.  `std::map`
iteration is embedded as association lists sorted strictly by key.

The rigid-algebra kernel (the external `engabra`/`rigibra` libraries) is
not part of the repository sources; those operations are modelled from
the specification (section 4.1) and are marked as such below.
-/

set_option maxRecDepth 8192

namespace OriMania

/-! ## Sign / index triples and `OrderTR` (ParmGroup.hpp / ParmGroup.cpp) -/

/-- om::OrderTR: transformation convention (translate-rotate order). -/
inductive OrderTR where
| TranRot : OrderTR
| RotTran : OrderTR
| Unknown : OrderTR
deriving DecidableEq, Repr

export OrderTR (TranRot RotTran Unknown)

/-- om::ThreeSigns (std::array of int8_t, 3): three plus-or-minus signs. -/
structure ThreeSigns where
s0 : ℤ
s1 : ℤ
s2 : ℤ
deriving DecidableEq, Repr

/-- om::ThreeIndices (std::array of uint8_t, 3): three small indices. -/
structure ThreeIndices where
n0 : ℕ
n1 : ℕ
n2 : ℕ
deriving DecidableEq, Repr

/-- Component access for a ThreeSigns value (array indexing).  Access at
an index other than 0,1,2 is undefined behaviour in the C++ source;
here it returns the last component as an arbitrary junk value. -/
def ThreeSigns.at3 (s : ThreeSigns) : ℕ → ℤ
| 0 => s.s0
| 1 => s.s1
| _ => s.s2

/-- Component access for a ThreeIndices value (array indexing). -/
def ThreeIndices.at3 (t : ThreeIndices) : ℕ → ℕ
| 0 => t.n0
| 1 => t.n1
| _ => t.n2

/-- A sign byte is canonical when it is one of the two values the
enumeration and the parser produce. -/
def sgnOK (s : ℤ) : Prop := s = 1 ∨ s = -1

instance (s : ℤ) : Decidable (sgnOK s) := by
unfold sgnOK
infer_instance

/-- Canonical range for ThreeSigns. -/
def ThreeSigns.OK (s : ThreeSigns) : Prop := sgnOK s.s0 ∧ sgnOK s.s1 ∧ sgnOK s.s2

instance (s : ThreeSigns) : Decidable s.OK := by
unfold ThreeSigns.OK
infer_instance

/-- Canonical range for ThreeIndices. -/
def ThreeIndices.OK (t : ThreeIndices) : Prop := t.n0 < 3 ∧ t.n1 < 3 ∧ t.n2 < 3

instance (t : ThreeIndices) : Decidable t.OK := by
unfold ThreeIndices.OK
infer_instance

/-! ## Numeric encodings of the components (Convention.cpp, anonymous
namespace).  C++ computes `(1u + sign)/2` in unsigned arithmetic; for the
canonical sign values ±1 this is `(1 + sign)/2` with exact division. -/

/-- numberFor(ThreeSigns): value in [0,7] for canonical signs. -/
def numberForSigns (s : ThreeSigns) : ℤ :=
4 * ((1 + s.s0) / 2) + 2 * ((1 + s.s1) / 2) + 1 * ((1 + s.s2) / 2)

/-- numberFor(ThreeIndices): value in [0,26] for canonical indices. -/
def numberForIndices (t : ThreeIndices) : ℤ :=
9 * (t.n0 : ℤ) + 3 * (t.n1 : ℤ) + 1 * (t.n2 : ℤ)

/-- numberFor(OrderTR): the enum value, 0, 1 or 2. -/
def numberForOrder : OrderTR → ℤ
| TranRot => 0
| RotTran => 1
| Unknown => 2

/-- Table used by threeSignsFor (Convention.cpp). -/
def threeSignsTable : List ThreeSigns :=
[ ⟨-1, -1, -1⟩, ⟨-1, -1, 1⟩, ⟨-1, 1, -1⟩, ⟨-1, 1, 1⟩
, ⟨1, -1, -1⟩, ⟨1, -1, 1⟩, ⟨1, 1, -1⟩, ⟨1, 1, 1⟩ ]

/-- threeSignsFor(numId): table lookup; out-of-range access is undefined
behaviour in C++ and returns a junk sentinel here. -/
def threeSignsFor (numId : ℤ) : ThreeSigns :=
threeSignsTable.getD numId.toNat ⟨-128, -128, -128⟩

/-- Table used by threeIndicesFor (Convention.cpp): all 27 triples over
{0,1,2} in ascending numeric order. -/
def threeIndicesTable : List ThreeIndices :=
[ ⟨0,0,0⟩, ⟨0,0,1⟩, ⟨0,0,2⟩, ⟨0,1,0⟩, ⟨0,1,1⟩, ⟨0,1,2⟩, ⟨0,2,0⟩, ⟨0,2,1⟩, ⟨0,2,2⟩
, ⟨1,0,0⟩, ⟨1,0,1⟩, ⟨1,0,2⟩, ⟨1,1,0⟩, ⟨1,1,1⟩, ⟨1,1,2⟩, ⟨1,2,0⟩, ⟨1,2,1⟩, ⟨1,2,2⟩
, ⟨2,0,0⟩, ⟨2,0,1⟩, ⟨2,0,2⟩, ⟨2,1,0⟩, ⟨2,1,1⟩, ⟨2,1,2⟩, ⟨2,2,0⟩, ⟨2,2,1⟩, ⟨2,2,2⟩ ]

/-- threeIndicesFor(numId): table lookup (junk sentinel out of range). -/
def threeIndicesFor (numId : ℤ) : ThreeIndices :=
threeIndicesTable.getD numId.toNat ⟨255, 255, 255⟩

/-- orderFor(numId): table lookup { TranRot, RotTran, Unknown }. -/
def orderFor (numId : ℤ) : OrderTR :=
[TranRot, RotTran, Unknown].getD numId.toNat Unknown

/-! ## Enumeration tables (ParmGroup.cpp allThreeSigns / allThreeIndices /
allBivIndices / allOrderTRs), in the exact source order. -/

/-- om::allThreeSigns(): all 8 sign triples. -/
def allThreeSigns : List ThreeSigns :=
[ ⟨-1, -1, -1⟩, ⟨-1, -1, 1⟩, ⟨-1, 1, -1⟩, ⟨-1, 1, 1⟩
, ⟨1, -1, -1⟩, ⟨1, -1, 1⟩, ⟨1, 1, -1⟩, ⟨1, 1, 1⟩ ]

/-- om::allThreeIndices(): the 6 permutations, in source order. -/
def allThreeIndices : List ThreeIndices :=
[ ⟨0,1,2⟩, ⟨0,2,1⟩, ⟨1,0,2⟩, ⟨1,2,0⟩, ⟨2,1,0⟩, ⟨2,0,1⟩ ]

/-- om::allBivIndices(): the 12 bivector-index triples, in source order. -/
def allBivIndices : List ThreeIndices :=
[ ⟨0,1,0⟩, ⟨0,1,2⟩, ⟨0,2,0⟩, ⟨0,2,1⟩, ⟨1,0,1⟩, ⟨1,0,2⟩
, ⟨1,2,0⟩, ⟨1,2,1⟩, ⟨2,0,1⟩, ⟨2,0,2⟩, ⟨2,1,0⟩, ⟨2,1,2⟩ ]

/-- om::allOrderTRs(): TranRot before RotTran. -/
def allOrderTRs : List OrderTR := [TranRot, RotTran]

/-! ## Convention data model (Convention.cpp; the matching header revision
is absent from the sources, but its field layout is pinned by the
aggregate initializations in `Convention::fromNumberEncoding` and by the
stale revisions of the header that remain in the tree). -/

/-- om::ConventionOffset: signs and index permutation for the offset. -/
structure ConventionOffset where
theOffSigns : ThreeSigns
theOffIndices : ThreeIndices
deriving DecidableEq, Repr

/-- om::ConventionAngle: signs, index permutation and bivector (rotation
plane) indices for the three sequential angles. -/
structure ConventionAngle where
theAngSigns : ThreeSigns
theAngIndices : ThreeIndices
theBivIndices : ThreeIndices
deriving DecidableEq, Repr

/-- om::Convention: offset convention, angle convention and order. -/
structure Convention where
theConvOff : ConventionOffset
theConvAng : ConventionAngle
theOrder : OrderTR
deriving DecidableEq, Repr

/-- Convention::isValid(): the order tag is known. -/
def Convention.isValid (c : Convention) : Prop := c.theOrder ≠ Unknown

instance (c : Convention) : Decidable c.isValid := by
unfold Convention.isValid
infer_instance

/-- A Convention is canonical when all components are in the ranges that
the enumeration and the parsers produce. -/
def Convention.canonical (c : Convention) : Prop :=
c.theConvOff.theOffSigns.OK ∧ c.theConvOff.theOffIndices.OK
∧ c.theConvAng.theAngSigns.OK ∧ c.theConvAng.theAngIndices.OK
∧ c.theConvAng.theBivIndices.OK

instance (c : Convention) : Decidable c.canonical := by
unfold Convention.canonical
infer_instance

/-! ## Numeric encoding (Convention.cpp numberEncoding / fromNumberEncoding).
The `num::` scale constants are the decimal digit-pair positions. -/

/-- Convention::numberEncoding(): -1 for an invalid convention, otherwise
the decimal digit-pair layout 1|offSgn|offNdx|angSgn|angNdx|bivNdx|order. -/
def Convention.numberEncoding (c : Convention) : ℤ :=
if c.isValid then
1000000000000
+ 10000000000 * numberForSigns c.theConvOff.theOffSigns
+ 100000000 * numberForIndices c.theConvOff.theOffIndices
+ 1000000 * numberForSigns c.theConvAng.theAngSigns
+ 10000 * numberForIndices c.theConvAng.theAngIndices
+ 100 * numberForIndices c.theConvAng.theBivIndices
+ 1 * numberForOrder c.theOrder
else -1

/-- Convention::fromNumberEncoding(numId): successive extraction of the
base-100 digits.  C++ `%` and `/` on int64 truncate toward zero, which is
`Int.tmod` / `Int.tdiv`. -/
def Convention.fromNumberEncoding (numId : ℤ) : Convention :=
let digOrder := numId.tmod 100
let curr1 := numId.tdiv 100
let digBivNdx := curr1.tmod 100
let curr2 := curr1.tdiv 100
let digAngNdx := curr2.tmod 100
let curr3 := curr2.tdiv 100
let digAngSgn := curr3.tmod 100
let curr4 := curr3.tdiv 100
let digOffNdx := curr4.tmod 100
let curr5 := curr4.tdiv 100
let digOffSgn := curr5.tmod 100
{ theConvOff := ⟨threeSignsFor digOffSgn, threeIndicesFor digOffNdx⟩
, theConvAng :=
  ⟨threeSignsFor digAngSgn, threeIndicesFor digAngNdx, threeIndicesFor digBivNdx⟩
, theOrder := orderFor digOrder }

/-! ## Enumeration of conventions (Convention.cpp). -/

/-- ConventionOffset::allConventions(): sign triples outer, index
permutations inner. -/
def ConventionOffset.allConventions : List ConventionOffset :=
allThreeSigns.flatMap fun locSign =>
allThreeIndices.map fun locNdx => ⟨locSign, locNdx⟩

/-- ConventionAngle::allConventions(): sign triples, then index
permutations, then bivector index triples. -/
def ConventionAngle.allConventions : List ConventionAngle :=
allThreeSigns.flatMap fun attSign =>
allThreeIndices.flatMap fun attNdx =>
allBivIndices.map fun bivNdx => ⟨attSign, attNdx, bivNdx⟩

/-- Convention::allConventionsFor(offConv): all angle conventions, each
with the two orders (TranRot first). -/
def Convention.allConventionsFor (offConv : ConventionOffset) : List Convention :=
ConventionAngle.allConventions.flatMap fun angConv =>
allOrderTRs.map fun order => ⟨offConv, angConv, order⟩

/-- Convention::allConventions(): offset conventions outermost. -/
def Convention.allConventions : List Convention :=
ConventionOffset.allConventions.flatMap fun offConv =>
Convention.allConventionsFor offConv

/-! ## String codec (ConventionString, Convention.cpp together with the
string helpers of ParmGroup.cpp).  C++ `std::string` values are embedded
as `List Char`.  The field order of the `ConventionString` record is not
in the sources (the matching header revision is missing); it is modelled
as the offset block first, which is the declared order of every header
revision that is in the tree (`theStrLocSigns` first in the stale
`Convention.hpp` and in `io.hpp`) and the extraction order used by
`ConventionString::from(std::string)` in Convention.cpp. -/

/-- priv::pmCharFor (ParmGroup.cpp). -/
def pmCharFor (aByte : ℤ) : Char := if aByte < 0 then '-' else '+'

/-- priv::signFrom (ParmGroup.cpp): '-' to -1, '+' to +1.  Any other
character yields a NaN double whose int8 conversion is undefined
behaviour in C++; embedded as the junk value 0. -/
def signFrom (aChar : Char) : ℤ :=
if aChar = '-' then -1 else if aChar = '+' then 1 else 0

/-- priv::indexFrom (ParmGroup.cpp): '0','1','2' to 0,1,2, else 255. -/
def indexFrom (aChar : Char) : ℕ :=
if aChar = '0' then 0 else if aChar = '1' then 1 else if aChar = '2' then 2 else 255

/-- Decimal digit character for the small index values streamed by
om::stringFrom(ThreeIndices); only 0,1,2 occur for canonical data. -/
def digitChar (n : ℕ) : Char :=
if n = 0 then '0' else if n = 1 then '1' else if n = 2 then '2' else '?'

/-- om::stringFrom(ThreeSigns) (ParmGroup.cpp). -/
def stringFromSigns (s : ThreeSigns) : List Char :=
[pmCharFor s.s0, pmCharFor s.s1, pmCharFor s.s2]

/-- om::stringFrom(ThreeIndices) (ParmGroup.cpp). -/
def stringFromIndices (t : ThreeIndices) : List Char :=
[digitChar t.n0, digitChar t.n1, digitChar t.n2]

/-- om::stringFrom(OrderTR) (ParmGroup.cpp): the enum value as a digit. -/
def stringFromOrder : OrderTR → List Char
| TranRot => ['0']
| RotTran => ['1']
| Unknown => ['2']

/-- om::threeSignsFrom (ParmGroup.cpp): sentinel -128 unless exactly
three characters. -/
def threeSignsFrom : List Char → ThreeSigns
| [a, b, c] => ⟨signFrom a, signFrom b, signFrom c⟩
| _ => ⟨-128, -128, -128⟩

/-- om::threeIndicesFrom (ParmGroup.cpp): sentinel 255 unless exactly
three characters. -/
def threeIndicesFrom : List Char → ThreeIndices
| [a, b, c] => ⟨indexFrom a, indexFrom b, indexFrom c⟩
| _ => ⟨255, 255, 255⟩

/-- om::orderTRFrom (ParmGroup.cpp): '0' is TranRot, '1' is RotTran,
anything else Unknown. -/
def orderTRFrom : List Char → OrderTR
| [a] => if a = '0' then TranRot else if a = '1' then RotTran else Unknown
| _ => Unknown

/-- om::ConventionString: the six tokens of the string encoding. -/
structure ConventionString where
theStrOffSigns : List Char
theStrOffNdxs : List Char
theStrAngSigns : List Char
theStrAngNdxs : List Char
theStrBivNdxs : List Char
theStrOrder : List Char
deriving DecidableEq, Repr

/-- ConventionString::from(Convention) (Convention.cpp).  The aggregate
initializer fills the record fields in declaration order; the source
computes the first two tokens from the angle convention and the next two
from the offset convention (its local variable names notwithstanding). -/
def ConventionString.fromConvention (c : Convention) : ConventionString :=
{ theStrOffSigns := stringFromSigns c.theConvAng.theAngSigns
, theStrOffNdxs := stringFromIndices c.theConvAng.theAngIndices
, theStrAngSigns := stringFromSigns c.theConvOff.theOffSigns
, theStrAngNdxs := stringFromIndices c.theConvOff.theOffIndices
, theStrBivNdxs := stringFromIndices c.theConvAng.theBivIndices
, theStrOrder := stringFromOrder c.theOrder }

/-- ConventionString::conventionOffset() (Convention.cpp). -/
def ConventionString.conventionOffset (cs : ConventionString) : ConventionOffset :=
⟨threeSignsFrom cs.theStrOffSigns, threeIndicesFrom cs.theStrOffNdxs⟩

/-- ConventionString::conventionAngle() (Convention.cpp). -/
def ConventionString.conventionAngle (cs : ConventionString) : ConventionAngle :=
⟨ threeSignsFrom cs.theStrAngSigns
, threeIndicesFrom cs.theStrAngNdxs
, threeIndicesFrom cs.theStrBivNdxs ⟩

/-- ConventionString::convention() (Convention.cpp). -/
def ConventionString.convention (cs : ConventionString) : Convention :=
⟨cs.conventionOffset, cs.conventionAngle, orderTRFrom cs.theStrOrder⟩

/-! ## Generic list-product indexing helpers used to characterize the
enumeration order and the search output layout. -/

theorem product_getD {α β : Type} (l1 : List α) (l2 : List β) (d1 : α) (d2 : β)
    (n : ℕ) (h : n < l1.length * l2.length) :
    (l1 ×ˢ l2).getD n (d1, d2)
      = (l1.getD (n / l2.length) d1, l2.getD (n % l2.length) d2) := by
  induction l1 generalizing n with
  | nil => simp at h
  | cons x xs ih =>
    have hL : 0 < l2.length := by
      rcases Nat.eq_zero_or_pos l2.length with h0 | h0
      · rw [h0] at h; omega
      · exact h0
    rw [List.product_cons]
    by_cases hn : n < l2.length
    · have hdiv : n / l2.length = 0 := Nat.div_eq_of_lt hn
      have hmod : n % l2.length = n := Nat.mod_eq_of_lt hn
      rw [hdiv, hmod]
      have hlen : n < (List.map (fun b => (x, b)) l2 ++ xs ×ˢ l2).length := by
        simp [List.length_product]
        omega
      rw [List.getD_eq_getElem _ _ hlen]
      rw [List.getElem_append_left (by simpa using hn)]
      rw [List.getElem_map]
      rw [List.getD_cons_zero, List.getD_eq_getElem _ _ (by simpa using hn)]
    · push_neg at hn
      obtain ⟨m, rfl⟩ : ∃ m, n = m + l2.length := ⟨n - l2.length, by omega⟩
      have hm : m < xs.length * l2.length := by
        have := List.length_product xs l2
        have h' := h
        simp only [List.length_cons] at h'
        rw [Nat.succ_mul] at h'
        omega
      have hdiv : (m + l2.length) / l2.length = m / l2.length + 1 :=
        Nat.add_div_right m hL
      have hmod : (m + l2.length) % l2.length = m % l2.length :=
        Nat.add_mod_right m l2.length
      rw [hdiv, hmod]
      have hskip :
          (List.map (fun b => (x, b)) l2 ++ xs ×ˢ l2).getD (m + l2.length) (d1, d2)
            = (xs ×ˢ l2).getD m (d1, d2) := by
        have hlenm : (List.map (fun b => (x, b)) l2).length = l2.length := by simp
        rcases Nat.lt_or_ge m ((xs ×ˢ l2).length) with hlt | hge
        · have htot : m + l2.length
              < (List.map (fun b => (x, b)) l2 ++ xs ×ˢ l2).length := by
            simp only [List.length_append, hlenm]
            omega
          rw [List.getD_eq_getElem _ _ htot,
            List.getElem_append_right (by omega)]
          simp only [hlenm, Nat.add_sub_cancel]
          rw [List.getD_eq_getElem _ _ hlt]
        · rw [List.getD_eq_default, List.getD_eq_default]
          · omega
          · simp only [List.length_append, hlenm]
            omega
      rw [hskip]
      rw [ih m hm]
      rw [List.getD_cons_succ]

theorem sprod_def {α β : Type} (l1 : List α) (l2 : List β) :
    l1 ×ˢ l2 = l1.flatMap fun a => l2.map fun b => (a, b) := rfl

theorem convOff_eq_product :
    ConventionOffset.allConventions
      = (allThreeSigns ×ˢ allThreeIndices).map fun p => ⟨p.1, p.2⟩ := by
  simp [ConventionOffset.allConventions, sprod_def, List.map_flatMap, List.map_map,
    Function.comp_def]

theorem convAng_eq_product :
    ConventionAngle.allConventions
      = (allThreeSigns ×ˢ (allThreeIndices ×ˢ allBivIndices)).map
          fun p => ⟨p.1, p.2.1, p.2.2⟩ := by
  simp [ConventionAngle.allConventions, sprod_def, List.map_flatMap, List.map_map,
    Function.comp_def]

theorem allConventions_eq_product :
    Convention.allConventions
      = ((ConventionOffset.allConventions ×ˢ ConventionAngle.allConventions)
          ×ˢ allOrderTRs).map fun p => ⟨p.1.1, p.1.2, p.2⟩ := by
  simp [Convention.allConventions, Convention.allConventionsFor, sprod_def,
    List.map_flatMap, List.map_map, List.flatMap_map, List.flatMap_assoc,
    Function.comp_def]

/-- Written from the claim, not from the source: the enumeration order
C3 states, as a mixed-radix decode of the list position with offset
signs outermost, then the offset permutation, angle signs, angle
permutation, bivector indices, and the order innermost (TranRot first,
radix 8,6,8,6,12,2 using the source component tables). -/
def specConventionAt (n : ℕ) : Convention :=
{ theConvOff :=
  ⟨ allThreeSigns.getD (n / 6912) ⟨-128,-128,-128⟩
  , allThreeIndices.getD (n / 1152 % 6) ⟨255,255,255⟩ ⟩
, theConvAng :=
  ⟨ allThreeSigns.getD (n / 144 % 8) ⟨-128,-128,-128⟩
  , allThreeIndices.getD (n / 24 % 6) ⟨255,255,255⟩
  , allBivIndices.getD (n / 2 % 12) ⟨255,255,255⟩ ⟩
, theOrder := allOrderTRs.getD (n % 2) Unknown }

theorem convOff_length : ConventionOffset.allConventions.length = 48 := rfl

theorem convAng_length : ConventionAngle.allConventions.length = 576 := rfl

theorem allConventions_length : Convention.allConventions.length = 55296 := by
  rw [allConventions_eq_product, List.length_map, List.length_product,
    List.length_product, convOff_length, convAng_length]
  rfl

theorem getD_map_of_lt {α β : Type} (f : α → β) (l : List α) (n : ℕ)
    (d : β) (dflt : α) (h : n < l.length) :
    (l.map f).getD n d = f (l.getD n dflt) := by
  rw [List.getD_eq_getElem _ _ (by simpa using h), List.getElem_map,
    List.getD_eq_getElem _ _ h]

theorem allConventions_getD (n : ℕ) (hn : n < 55296) :
    Convention.allConventions.getD n (specConventionAt 0) = specConventionAt n := by
  rw [allConventions_eq_product]
  have hOA : (ConventionOffset.allConventions ×ˢ ConventionAngle.allConventions).length
      = 27648 := by
    rw [List.length_product, convOff_length, convAng_length]
  have hORD : allOrderTRs.length = 2 := rfl
  have h3 : n < ((ConventionOffset.allConventions ×ˢ ConventionAngle.allConventions)
      ×ˢ allOrderTRs).length := by
    rw [List.length_product, hOA, hORD]; omega
  rw [getD_map_of_lt _ _ _ _ ((⟨⟨-128,-128,-128⟩,⟨255,255,255⟩⟩,
    ⟨⟨-128,-128,-128⟩,⟨255,255,255⟩,⟨255,255,255⟩⟩), Unknown) h3]
  rw [product_getD _ _ _ _ _ (by rw [hOA, hORD]; omega)]
  rw [hORD]
  have hb2 : n / 2 < (ConventionOffset.allConventions).length
      * (ConventionAngle.allConventions).length := by
    rw [convOff_length, convAng_length]; omega
  rw [product_getD _ _ _ _ _ hb2]
  rw [convAng_length]
  dsimp only
  rw [convOff_eq_product, convAng_eq_product]
  have hb3 : n / 2 / 576 < (allThreeSigns ×ˢ allThreeIndices).length := by
    have : (allThreeSigns ×ˢ allThreeIndices).length = 48 := rfl
    rw [this]; omega
  rw [getD_map_of_lt _ _ _ _ (⟨-128,-128,-128⟩, ⟨255,255,255⟩) hb3]
  have hb4 : n / 2 / 576 < allThreeSigns.length * allThreeIndices.length := by
    have h8 : allThreeSigns.length = 8 := rfl
    have h6 : allThreeIndices.length = 6 := rfl
    rw [h8, h6]; omega
  rw [product_getD _ _ _ _ _ hb4]
  have h6 : allThreeIndices.length = 6 := rfl
  rw [h6]
  have hb5 : n / 2 % 576 < (allThreeSigns ×ˢ (allThreeIndices ×ˢ allBivIndices)).length := by
    have : (allThreeSigns ×ˢ (allThreeIndices ×ˢ allBivIndices)).length = 576 := rfl
    rw [this]; omega
  rw [getD_map_of_lt _ _ _ _ (⟨-128,-128,-128⟩, (⟨255,255,255⟩, ⟨255,255,255⟩)) hb5]
  have hb6 : n / 2 % 576 < allThreeSigns.length * (allThreeIndices ×ˢ allBivIndices).length := by
    have h8 : allThreeSigns.length = 8 := rfl
    have h72 : (allThreeIndices ×ˢ allBivIndices).length = 72 := rfl
    rw [h8, h72]; omega
  rw [product_getD _ _ _ _ _ hb6]
  have h72 : (allThreeIndices ×ˢ allBivIndices).length = 72 := rfl
  rw [h72]
  have hb7 : n / 2 % 576 % 72 < allThreeIndices.length * allBivIndices.length := by
    have h6b : allThreeIndices.length = 6 := rfl
    have h12 : allBivIndices.length = 12 := rfl
    rw [h6b, h12]; omega
  rw [product_getD _ _ _ _ _ hb7]
  have h12 : allBivIndices.length = 12 := rfl
  rw [h12]
  dsimp only
  have e1 : n / 2 / 576 / 6 = n / 6912 := by omega
  have e2 : n / 2 / 576 % 6 = n / 1152 % 6 := by omega
  have e3 : n / 2 % 576 / 72 = n / 144 % 8 := by omega
  have e4 : n / 2 % 576 % 72 / 12 = n / 24 % 6 := by omega
  have e5 : n / 2 % 576 % 72 % 12 = n / 2 % 12 := by omega
  rw [e1, e2, e3, e4, e5]
  rfl

theorem offMk_injective :
    Function.Injective (fun p : ThreeSigns × ThreeIndices =>
      (⟨p.1, p.2⟩ : ConventionOffset)) := by
  rintro ⟨a1, a2⟩ ⟨b1, b2⟩ h
  simp only [ConventionOffset.mk.injEq] at h
  obtain ⟨h1, h2⟩ := h
  subst h1; subst h2; rfl

theorem angMk_injective :
    Function.Injective (fun p : ThreeSigns × (ThreeIndices × ThreeIndices) =>
      (⟨p.1, p.2.1, p.2.2⟩ : ConventionAngle)) := by
  rintro ⟨a1, a2, a3⟩ ⟨b1, b2, b3⟩ h
  simp only [ConventionAngle.mk.injEq] at h
  obtain ⟨h1, h2, h3⟩ := h
  subst h1; subst h2; subst h3; rfl

theorem convMk_injective :
    Function.Injective (fun p : (ConventionOffset × ConventionAngle) × OrderTR =>
      (⟨p.1.1, p.1.2, p.2⟩ : Convention)) := by
  rintro ⟨⟨a1, a2⟩, a3⟩ ⟨⟨b1, b2⟩, b3⟩ h
  simp only [Convention.mk.injEq] at h
  obtain ⟨h1, h2, h3⟩ := h
  subst h1; subst h2; subst h3; rfl

theorem convOff_nodup : ConventionOffset.allConventions.Nodup := by
  rw [convOff_eq_product]
  exact (List.Nodup.product (by decide) (by decide)).map offMk_injective

theorem convAng_nodup : ConventionAngle.allConventions.Nodup := by
  rw [convAng_eq_product]
  exact (List.Nodup.product (by decide)
    (List.Nodup.product (by decide) (by decide))).map angMk_injective

theorem allConventions_nodup : Convention.allConventions.Nodup := by
  rw [allConventions_eq_product]
  exact (List.Nodup.product
    (List.Nodup.product convOff_nodup convAng_nodup) (by decide)).map convMk_injective

theorem allConventions_eq_range_map :
    Convention.allConventions = (List.range 55296).map specConventionAt := by
  apply List.ext_getElem
  · rw [allConventions_length, List.length_map, List.length_range]
  intro n h1 h2
  have hn : n < 55296 := by rw [allConventions_length] at h1; exact h1
  rw [List.getElem_map, List.getElem_range]
  rw [← List.getD_eq_getElem Convention.allConventions (specConventionAt 0) h1]
  exact allConventions_getD n hn

/-! ## Helper lemmas for the numeric encoding round trip. -/

theorem numberForSigns_bound (s : ThreeSigns) (h : s.OK) :
    0 ≤ numberForSigns s ∧ numberForSigns s ≤ 7 := by
  obtain ⟨h0, h1, h2⟩ := h
  unfold numberForSigns
  rcases h0 with h0 | h0 <;> rcases h1 with h1 | h1 <;> rcases h2 with h2 | h2 <;>
    rw [h0, h1, h2] <;> norm_num

theorem numberForIndices_bound (t : ThreeIndices) (h : t.OK) :
    0 ≤ numberForIndices t ∧ numberForIndices t ≤ 26 := by
  obtain ⟨h0, h1, h2⟩ := h
  unfold numberForIndices
  omega

theorem threeSignsFor_numberFor (s : ThreeSigns) (h : s.OK) :
    threeSignsFor (numberForSigns s) = s := by
  obtain ⟨s0, s1, s2⟩ := s
  obtain ⟨h0, h1, h2⟩ := h
  simp only [sgnOK] at h0 h1 h2
  rcases h0 with h0 | h0 <;> rcases h1 with h1 | h1 <;> rcases h2 with h2 | h2 <;>
    subst h0 <;> subst h1 <;> subst h2 <;> decide

theorem threeIndicesFor_numberFor (t : ThreeIndices) (h : t.OK) :
    threeIndicesFor (numberForIndices t) = t := by
  obtain ⟨n0, n1, n2⟩ := t
  obtain ⟨h0, h1, h2⟩ := h
  simp only at h0 h1 h2
  interval_cases n0 <;> interval_cases n1 <;> interval_cases n2 <;> decide

theorem orderFor_numberFor (o : OrderTR) : orderFor (numberForOrder o) = o := by
  cases o <;> decide

theorem tdivmod_step (E Q r : ℤ) (hE : E = Q * 100 + r) (h0 : 0 ≤ r)
    (h1 : r < 100) (hQ : 0 ≤ Q) : E.tdiv 100 = Q ∧ E.tmod 100 = r := by
  have hE0 : 0 ≤ E := by omega
  rw [Int.tdiv_eq_ediv hE0 (by norm_num), Int.tmod_eq_emod hE0 (by norm_num)]
  omega

theorem numberEncoding_roundTrip (c : Convention) (hc : c.canonical)
    (hv : c.isValid) :
    Convention.fromNumberEncoding c.numberEncoding = c := by
  obtain ⟨⟨cs, ci⟩, ⟨as3, ai, bi⟩, o⟩ := c
  obtain ⟨hcs, hci, has, hai, hbi⟩ := hc
  simp only at hcs hci has hai hbi
  have hA := numberForSigns_bound cs hcs
  have hB := numberForIndices_bound ci hci
  have hG := numberForSigns_bound as3 has
  have hH := numberForIndices_bound ai hai
  have hI := numberForIndices_bound bi hbi
  set a := numberForSigns cs with ha
  set b := numberForIndices ci with hb
  set g := numberForSigns as3 with hg
  set h4 := numberForIndices ai with hh4
  set i := numberForIndices bi with hi
  set j := numberForOrder o with hj
  have hJ : 0 ≤ j ∧ j ≤ 1 := by
    cases o with
    | TranRot => simp [hj, numberForOrder]
    | RotTran => simp [hj, numberForOrder]
    | Unknown => exact absurd rfl hv
  have hEnc : Convention.numberEncoding ⟨⟨cs, ci⟩, ⟨as3, ai, bi⟩, o⟩
      = 1000000000000 + 10000000000 * a + 100000000 * b + 1000000 * g
        + 10000 * h4 + 100 * i + 1 * j := by
    rw [Convention.numberEncoding, if_pos hv]
  rw [hEnc]
  set E := 1000000000000 + 10000000000 * a + 100000000 * b + 1000000 * g
      + 10000 * h4 + 100 * i + 1 * j with hE
  have s1 := tdivmod_step E
    (10000000000 + 100000000 * a + 1000000 * b + 10000 * g + 100 * h4 + i) j
    (by omega) (by omega) (by omega) (by omega)
  have s2 := tdivmod_step
    (10000000000 + 100000000 * a + 1000000 * b + 10000 * g + 100 * h4 + i)
    (100000000 + 1000000 * a + 10000 * b + 100 * g + h4) i
    (by omega) (by omega) (by omega) (by omega)
  have s3 := tdivmod_step
    (100000000 + 1000000 * a + 10000 * b + 100 * g + h4)
    (1000000 + 10000 * a + 100 * b + g) h4
    (by omega) (by omega) (by omega) (by omega)
  have s4 := tdivmod_step
    (1000000 + 10000 * a + 100 * b + g)
    (10000 + 100 * a + b) g
    (by omega) (by omega) (by omega) (by omega)
  have s5 := tdivmod_step
    (10000 + 100 * a + b)
    (100 + a) b
    (by omega) (by omega) (by omega) (by omega)
  have s6 := tdivmod_step (100 + a) 1 a
    (by omega) (by omega) (by omega) (by omega)
  rw [Convention.fromNumberEncoding]
  simp only [s1.1, s1.2, s2.1, s2.2, s3.1, s3.2, s4.1, s4.2, s5.1, s5.2,
    s6.1, s6.2]
  rw [ha, hb, hg, hh4, hi, hj]
  rw [threeSignsFor_numberFor cs hcs, threeIndicesFor_numberFor ci hci,
    threeSignsFor_numberFor as3 has, threeIndicesFor_numberFor ai hai,
    threeIndicesFor_numberFor bi hbi, orderFor_numberFor o]

theorem numberEncoding_sentinel (c : Convention) (hc : c.canonical) :
    (c.numberEncoding = -1 ↔ ¬ c.isValid)
      ∧ (c.isValid → (10:ℤ)^12 ≤ c.numberEncoding) := by
  obtain ⟨hcs, hci, has, hai, hbi⟩ := hc
  have hA := numberForSigns_bound _ hcs
  have hB := numberForIndices_bound _ hci
  have hG := numberForSigns_bound _ has
  have hH := numberForIndices_bound _ hai
  have hI := numberForIndices_bound _ hbi
  by_cases hv : c.isValid
  · have h0 : 0 ≤ numberForOrder c.theOrder := by
      cases c.theOrder <;> simp [numberForOrder]
    rw [Convention.numberEncoding, if_pos hv]
    constructor
    · constructor
      · intro h
        omega
      · intro h
        exact absurd hv h
    · intro
      norm_num
      omega
  · rw [Convention.numberEncoding, if_neg hv]
    constructor
    · simp [hv]
    · intro h
      exact absurd h hv

/-- A canonical valid convention whose offset and angle blocks differ:
offSigns (+,+,+), offNdx (0,1,2), angSigns (+,+,-), angNdx (0,2,1),
bivNdx (0,1,0), order TranRot. -/
def c2FailingInput : Convention :=
{ theConvOff := ⟨⟨1, 1, 1⟩, ⟨0, 1, 2⟩⟩
, theConvAng := ⟨⟨1, 1, -1⟩, ⟨0, 2, 1⟩, ⟨0, 1, 0⟩⟩
, theOrder := TranRot }

theorem stringRoundTrip_swapsOffAng :
    (ConventionString.fromConvention c2FailingInput).convention ≠ c2FailingInput
    ∧ (ConventionString.fromConvention c2FailingInput).convention
        = { theConvOff := ⟨⟨1, 1, -1⟩, ⟨0, 2, 1⟩⟩
          , theConvAng := ⟨⟨1, 1, 1⟩, ⟨0, 1, 2⟩, ⟨0, 1, 0⟩⟩
          , theOrder := TranRot }
    ∧ c2FailingInput.canonical ∧ c2FailingInput.isValid := by
  decide

/-! ## Claim theorems for the convention codecs and enumeration. -/

/-- C3: Convention::allConventions() returns exactly 55,296 pairwise-distinct
Convention values, enumerated with offset conventions outermost, then angle
signs, then the angle permutation, then the bivector indices, and the
translate/rotate order innermost with TranRot before RotTran.  The third
conjunct pins the whole list: element n is the mixed-radix decode of n in
exactly that digit order (`specConventionAt`, written from the claim). -/
theorem claimC3_enumeration :
    Convention.allConventions.length = 55296
    ∧ Convention.allConventions.Nodup
    ∧ Convention.allConventions = (List.range 55296).map specConventionAt :=
⟨allConventions_length, allConventions_nodup, allConventions_eq_range_map⟩

/-- C4: for every canonical valid Convention, the 64-bit numeric encoding
round-trips: fromNumberEncoding (numberEncoding c) = c. -/
theorem claimC4_number_roundTrip (c : Convention) (hc : c.canonical)
    (hv : c.isValid) :
    Convention.fromNumberEncoding c.numberEncoding = c :=
numberEncoding_roundTrip c hc hv

/-- C4 witness: the round trip evaluated at a concrete convention. -/
theorem claimC4_number_roundTrip_witness :
    Convention.fromNumberEncoding
      (Convention.numberEncoding
        ⟨⟨⟨1, -1, 1⟩, ⟨2, 0, 1⟩⟩, ⟨⟨-1, 1, 1⟩, ⟨1, 2, 0⟩, ⟨2, 0, 2⟩⟩, RotTran⟩)
      = ⟨⟨⟨1, -1, 1⟩, ⟨2, 0, 1⟩⟩, ⟨⟨-1, 1, 1⟩, ⟨1, 2, 0⟩, ⟨2, 0, 2⟩⟩, RotTran⟩ :=
claimC4_number_roundTrip _ (by decide) (by decide)

/-- C9: for every canonical Convention, numberEncoding() is -1 exactly when
the convention is invalid (Order = Unknown), and every valid convention
encodes to at least 10^12 (the leading pad digit). -/
theorem claimC9_encoding_sentinel (c : Convention) (hc : c.canonical) :
    (c.numberEncoding = -1 ↔ ¬ c.isValid)
      ∧ (c.isValid → (10:ℤ)^12 ≤ c.numberEncoding) :=
numberEncoding_sentinel c hc

/-- C9 witness: the sentinel property evaluated at a concrete valid
convention and at a concrete invalid one. -/
theorem claimC9_encoding_sentinel_witness :
    (Convention.numberEncoding
        ⟨⟨⟨1, 1, -1⟩, ⟨0, 2, 1⟩⟩, ⟨⟨-1, -1, 1⟩, ⟨1, 0, 2⟩, ⟨2, 1, 2⟩⟩, TranRot⟩ = -1
      ↔ ¬ Convention.isValid
          ⟨⟨⟨1, 1, -1⟩, ⟨0, 2, 1⟩⟩, ⟨⟨-1, -1, 1⟩, ⟨1, 0, 2⟩, ⟨2, 1, 2⟩⟩, TranRot⟩)
    ∧ (Convention.isValid
          ⟨⟨⟨1, 1, -1⟩, ⟨0, 2, 1⟩⟩, ⟨⟨-1, -1, 1⟩, ⟨1, 0, 2⟩, ⟨2, 1, 2⟩⟩, TranRot⟩
        → (10:ℤ)^12 ≤ Convention.numberEncoding
            ⟨⟨⟨1, 1, -1⟩, ⟨0, 2, 1⟩⟩, ⟨⟨-1, -1, 1⟩, ⟨1, 0, 2⟩, ⟨2, 1, 2⟩⟩, TranRot⟩) :=
claimC9_encoding_sentinel _ (by decide)

/-- C2: the claim asserts ConventionString::from(c).convention() = c for
every valid Convention.  The code swaps the offset and angle blocks on the
encode side while decoding them straight, so the round trip exchanges the
two blocks; this theorem exhibits a canonical valid convention on which the
round trip differs from the input (and evaluates what it returns instead).
The string round trip therefore fails for every convention whose offset and
angle sign/index blocks differ. -/
theorem claimC2_string_roundTrip_fails :
    (ConventionString.fromConvention c2FailingInput).convention ≠ c2FailingInput
    ∧ (ConventionString.fromConvention c2FailingInput).convention
        = { theConvOff := ⟨⟨1, 1, -1⟩, ⟨0, 2, 1⟩⟩
          , theConvAng := ⟨⟨1, 1, 1⟩, ⟨0, 1, 2⟩, ⟨0, 1, 0⟩⟩
          , theOrder := TranRot }
    ∧ c2FailingInput.canonical ∧ c2FailingInput.isValid :=
stringRoundTrip_swapsOffAng

/-! ## Rigid algebra kernel.

The `engabra`/`rigibra` libraries are external to this repository; the
spec (section 4.1) defines their contract.  Everything in this section is
therefore *modelled from the spec*: 3-vectors and spinors with exact real
components, the geometric product of even elements, the sandwich-product
rotation, and rigid transforms with `apply`, `compose` (the C++ operator*)
and `inverse` exactly as written in spec section 4.1. -/

/-- Modelled from the spec: engabra::g3::Vector (a 3-vector). -/
structure Vec where
x1 : ℝ
x2 : ℝ
x3 : ℝ

/-- Vector addition. -/
def Vec.add (a b : Vec) : Vec := ⟨a.x1 + b.x1, a.x2 + b.x2, a.x3 + b.x3⟩

/-- Vector subtraction. -/
def Vec.sub (a b : Vec) : Vec := ⟨a.x1 - b.x1, a.x2 - b.x2, a.x3 - b.x3⟩

/-- Vector negation. -/
def Vec.neg (a : Vec) : Vec := ⟨-a.x1, -a.x2, -a.x3⟩

/-- Scalar multiple. -/
def Vec.smul (t : ℝ) (a : Vec) : Vec := ⟨t * a.x1, t * a.x2, t * a.x3⟩

/-- Dot product. -/
def Vec.dot (a b : Vec) : ℝ := a.x1 * b.x1 + a.x2 * b.x2 + a.x3 * b.x3

/-- Cross product. -/
def Vec.cross (a b : Vec) : Vec :=
⟨ a.x2 * b.x3 - a.x3 * b.x2
, a.x3 * b.x1 - a.x1 * b.x3
, a.x1 * b.x2 - a.x2 * b.x1 ⟩

/-- engabra::g3::magSq: sum of squared components. -/
def Vec.magSq (a : Vec) : ℝ := a.dot a

/-- Modelled from the spec: engabra::g3::Spinor — a scalar plus a
bivector with components along the planes e23, e31, e12. -/
structure Spin where
sc : ℝ
b1 : ℝ
b2 : ℝ
b3 : ℝ

/-- Bivector part of a spinor, as a component triple. -/
def Spin.bv (q : Spin) : Vec := ⟨q.b1, q.b2, q.b3⟩

/-- Geometric product of two even elements of G(3).  With B1 = e23,
B2 = e31, B3 = e12 one has B1B1 = B2B2 = B3B3 = -1, B1B2 = -B3,
B2B3 = -B1, B3B1 = -B2 (and the opposite sign when transposed). -/
def Spin.mul (p q : Spin) : Spin :=
⟨ p.sc * q.sc - p.b1 * q.b1 - p.b2 * q.b2 - p.b3 * q.b3
, p.sc * q.b1 + p.b1 * q.sc - p.b2 * q.b3 + p.b3 * q.b2
, p.sc * q.b2 + p.b2 * q.sc - p.b3 * q.b1 + p.b1 * q.b3
, p.sc * q.b3 + p.b3 * q.sc - p.b1 * q.b2 + p.b2 * q.b1 ⟩

/-- Reverse of a spinor (negates the bivector part). -/
def Spin.rev (q : Spin) : Spin := ⟨q.sc, -q.b1, -q.b2, -q.b3⟩

/-- Modelled from the spec: rotation of a vector by a spinor via the
sandwich product q v q† (spec 4.1), expanded into components: for
q = s + b one gets (s² - |b|²) v + 2 (b·v) b - 2 s (b × v), where the
bivector components (e23, e31, e12) are paired with the axes (e1,e2,e3). -/
def rotateV (q : Spin) (v : Vec) : Vec :=
(Vec.smul (q.sc * q.sc - Vec.magSq q.bv) v).add
  ((Vec.smul (2 * Vec.dot q.bv v) q.bv).add
    (Vec.smul (-(2 * q.sc)) (Vec.cross q.bv v)))

/-- Modelled from the spec: exp(½·b) for a bivector b (spec 4.1); the
zero bivector yields the identity spinor (Lean division by zero makes
the formula return exactly that). -/
noncomputable def spinExp (b : Vec) : Spin :=
⟨ Real.cos (Real.sqrt (Vec.magSq b) / 2)
, Real.sin (Real.sqrt (Vec.magSq b) / 2) / Real.sqrt (Vec.magSq b) * b.x1
, Real.sin (Real.sqrt (Vec.magSq b) / 2) / Real.sqrt (Vec.magSq b) * b.x2
, Real.sin (Real.sqrt (Vec.magSq b) / 2) / Real.sqrt (Vec.magSq b) * b.x3 ⟩

/-- Modelled from the spec: rigibra::Transform — translation and
attitude; om::SenOri is an alias of it. -/
structure Transform where
translation : Vec
attitude : Spin

/-- Modelled from the spec: apply(t, v) = t.translation + rotate(t.attitude, v). -/
def Transform.applyT (t : Transform) (v : Vec) : Vec :=
t.translation.add (rotateV t.attitude v)

/-- Modelled from the spec: compose(a, b) (the C++ a * b) applies b
first: translation a.t + rotate(a.att, b.t), attitude a.att · b.att. -/
def composeT (a b : Transform) : Transform :=
⟨a.translation.add (rotateV a.attitude b.translation), a.attitude.mul b.attitude⟩

/-- Modelled from the spec: inverse(t) has attitude reverse(t.att) and
translation rotate(reverse(t.att), -t.translation). -/
def inverseT (t : Transform) : Transform :=
⟨rotateV t.attitude.rev t.translation.neg, t.attitude.rev⟩

/-! ## ParmGroup and the parameter-to-orientation mapping
(ParmGroup.hpp, Convention.cpp). -/

/-- Triple of doubles (std::array of double, 3). -/
structure RealTriple where
r0 : ℝ
r1 : ℝ
r2 : ℝ

/-- Array indexing on a double triple (out-of-range access is undefined
behaviour in C++; junk last component here). -/
def RealTriple.at3 (v : RealTriple) : ℕ → ℝ
| 0 => v.r0
| 1 => v.r1
| _ => v.r2

/-- om::ParmGroup: three distances and three angles. -/
structure ParmGroup where
theDistances : RealTriple
theAngles : RealTriple

/-- ConventionOffset::offsetFor (Convention.cpp): signed permuted
distances gathered into a vector. -/
def ConventionOffset.offsetFor (co : ConventionOffset) (pg : ParmGroup) : Vec :=
⟨ (co.theOffSigns.s0 : ℝ) * pg.theDistances.at3 co.theOffIndices.n0
, (co.theOffSigns.s1 : ℝ) * pg.theDistances.at3 co.theOffIndices.n1
, (co.theOffSigns.s2 : ℝ) * pg.theDistances.at3 co.theOffIndices.n2 ⟩

/-- Cardinal rotation planes e23, e31, e12 as bivector component
triples (the static eVals of ConventionAngle::attitudeFor). -/
def cardinalPlane : ℕ → Vec
| 0 => ⟨1, 0, 0⟩
| 1 => ⟨0, 1, 0⟩
| _ => ⟨0, 0, 1⟩

/-- ConventionAngle::attitudeFor (Convention.cpp): signed permuted angle
sizes on the selected cardinal planes, composed right-to-left as
attC * attB * attA. -/
noncomputable def ConventionAngle.attitudeFor
    (ca : ConventionAngle) (pg : ParmGroup) : Spin :=
let sizeA := (ca.theAngSigns.s0 : ℝ) * pg.theAngles.at3 ca.theAngIndices.n0
let sizeB := (ca.theAngSigns.s1 : ℝ) * pg.theAngles.at3 ca.theAngIndices.n1
let sizeC := (ca.theAngSigns.s2 : ℝ) * pg.theAngles.at3 ca.theAngIndices.n2
let attA := spinExp (Vec.smul sizeA (cardinalPlane ca.theBivIndices.n0))
let attB := spinExp (Vec.smul sizeB (cardinalPlane ca.theBivIndices.n1))
let attC := spinExp (Vec.smul sizeC (cardinalPlane ca.theBivIndices.n2))
Spin.mul (Spin.mul attC attB) attA

/-- Convention::offsetFor (Convention.cpp): delegate. -/
def Convention.offsetFor (c : Convention) (pg : ParmGroup) : Vec :=
c.theConvOff.offsetFor pg

/-- Convention::attitudeFor (Convention.cpp): delegate. -/
noncomputable def Convention.attitudeFor (c : Convention) (pg : ParmGroup) : Spin :=
c.theConvAng.attitudeFor pg

/-- Convention::transformFor (Convention.cpp): the translation starts as
the TranRot offset and, for RotTran, is replaced by the inverse attitude
applied to it; rigibra's inverse of an attitude is its reverse. -/
noncomputable def Convention.transformFor
    (c : Convention) (pg : ParmGroup) : Transform :=
let attR := c.attitudeFor pg
let tVec0 := c.offsetFor pg
let tVec := if c.theOrder = RotTran then rotateV attR.rev tVec0 else tVec0
⟨tVec, attR⟩

/-- C1: for every ParmGroup and every Convention whose order is RotTran,
transformFor returns the attitude attitudeFor(parmGroup) and the
translation obtained by applying the INVERSE (reverse) of that attitude
to the assembled offset vector — never the forward attitude. -/
theorem claimC1_rotTran_translation (c : Convention) (pg : ParmGroup)
    (h : c.theOrder = RotTran) :
    (c.transformFor pg).translation
        = rotateV (Spin.rev (c.attitudeFor pg)) (c.offsetFor pg)
    ∧ (c.transformFor pg).attitude = c.attitudeFor pg := by
constructor
· show (if c.theOrder = RotTran then _ else _) = _
  rw [if_pos h]
· rfl

/-- C1 witness: the RotTran hypothesis discharged at a concrete
convention and parameter group. -/
theorem claimC1_rotTran_translation_witness :
    (Convention.transformFor
        ⟨⟨⟨1, 1, -1⟩, ⟨1, 0, 2⟩⟩, ⟨⟨1, -1, 1⟩, ⟨0, 1, 2⟩, ⟨1, 2, 1⟩⟩, RotTran⟩
        ⟨⟨10, -30, 20⟩, ⟨-0.7, 0.3, -0.5⟩⟩).translation
      = rotateV
          (Spin.rev (Convention.attitudeFor
            ⟨⟨⟨1, 1, -1⟩, ⟨1, 0, 2⟩⟩, ⟨⟨1, -1, 1⟩, ⟨0, 1, 2⟩, ⟨1, 2, 1⟩⟩, RotTran⟩
            ⟨⟨10, -30, 20⟩, ⟨-0.7, 0.3, -0.5⟩⟩))
          (Convention.offsetFor
            ⟨⟨⟨1, 1, -1⟩, ⟨1, 0, 2⟩⟩, ⟨⟨1, -1, 1⟩, ⟨0, 1, 2⟩, ⟨1, 2, 1⟩⟩, RotTran⟩
            ⟨⟨10, -30, 20⟩, ⟨-0.7, 0.3, -0.5⟩⟩)
    ∧ (Convention.transformFor
        ⟨⟨⟨1, 1, -1⟩, ⟨1, 0, 2⟩⟩, ⟨⟨1, -1, 1⟩, ⟨0, 1, 2⟩, ⟨1, 2, 1⟩⟩, RotTran⟩
        ⟨⟨10, -30, 20⟩, ⟨-0.7, 0.3, -0.5⟩⟩).attitude
      = Convention.attitudeFor
          ⟨⟨⟨1, 1, -1⟩, ⟨1, 0, 2⟩⟩, ⟨⟨1, -1, 1⟩, ⟨0, 1, 2⟩, ⟨1, 2, 1⟩⟩, RotTran⟩
          ⟨⟨10, -30, 20⟩, ⟨-0.7, 0.3, -0.5⟩⟩ :=
claimC1_rotTran_translation _ _ (by decide)

/-! ## Scoring kernel (Analysis.hpp).  In the exact-real embedding every
value is finite, so the isValid guards of the C++ code are always taken;
the NaN-on-invalid branches have no counterpart. -/

/-- om::Triad: the images of the three cardinal basis vectors. -/
structure Triad where
t1 : Vec
t2 : Vec
t3 : Vec

/-- om::basisTransformed: transform e1,e2,e3 by an orientation. -/
def basisTransformed (ori : Transform) : Triad :=
⟨ori.applyT ⟨1, 0, 0⟩, ori.applyT ⟨0, 1, 0⟩, ori.applyT ⟨0, 0, 1⟩⟩

/-- om::rmseDiff: root mean square of the component differences of two
triads over the 3 = 9 - 6 statistical degrees of freedom. -/
noncomputable def rmseDiff (triA triB : Triad) : ℝ :=
Real.sqrt ((1 / 3)
  * (Vec.magSq (triB.t1.sub triA.t1)
    + Vec.magSq (triB.t2.sub triA.t2)
    + Vec.magSq (triB.t3.sub triA.t3)))

/-- om::rmseBasisErrorBetween2 (Analysis.hpp): transform the basis triad
by each orientation separately and compare columnwise. -/
noncomputable def rmseBasisErrorBetween2 (ori1wX ori2wX : Transform) : ℝ :=
rmseDiff (basisTransformed ori1wX) (basisTransformed ori2wX)

/-- om::basisTransformRMSE (Analysis.hpp): how far an orientation moves
the three cardinal basis vectors. -/
noncomputable def basisTransformRMSE (ori : Transform) : ℝ :=
Real.sqrt ((1 / 3)
  * (Vec.magSq ((ori.applyT ⟨1, 0, 0⟩).sub ⟨1, 0, 0⟩)
    + Vec.magSq ((ori.applyT ⟨0, 1, 0⟩).sub ⟨0, 1, 0⟩)
    + Vec.magSq ((ori.applyT ⟨0, 0, 1⟩).sub ⟨0, 0, 1⟩)))

/-- om::rmseBasisErrorBetween1 (Analysis.hpp): form the relative
orientation ori2wX * inverse(ori1wX) and measure how far it moves the
basis triad. -/
noncomputable def rmseBasisErrorBetween1 (ori1wX ori2wX : Transform) : ℝ :=
basisTransformRMSE (composeT ori2wX (inverseT ori1wX))

/-- C7: the claim asserts rmseBasisErrorBetween1 and
rmseBasisErrorBetween2 compute the same value for every pair of valid
rigid transforms.  They do not: Between1 measures the residual
ori2 · inverse(ori1) against the identity on the cardinal triad, which
expresses the translation mismatch in a different frame than Between2's
columnwise comparison.  At ori1 = pure translation e1, ori2 = pure
rotation by the exact-rational spinor (3/5, 0, 0, 4/5), the two return
sqrt(91/75) and sqrt(219/75) respectively. -/
theorem claimC7_scorers_disagree :
    rmseBasisErrorBetween1 ⟨⟨1, 0, 0⟩, ⟨1, 0, 0, 0⟩⟩ ⟨⟨0, 0, 0⟩, ⟨3/5, 0, 0, 4/5⟩⟩
      = Real.sqrt (91 / 75)
    ∧ rmseBasisErrorBetween2 ⟨⟨1, 0, 0⟩, ⟨1, 0, 0, 0⟩⟩ ⟨⟨0, 0, 0⟩, ⟨3/5, 0, 0, 4/5⟩⟩
      = Real.sqrt (219 / 75)
    ∧ rmseBasisErrorBetween1 ⟨⟨1, 0, 0⟩, ⟨1, 0, 0, 0⟩⟩ ⟨⟨0, 0, 0⟩, ⟨3/5, 0, 0, 4/5⟩⟩
      ≠ rmseBasisErrorBetween2 ⟨⟨1, 0, 0⟩, ⟨1, 0, 0, 0⟩⟩ ⟨⟨0, 0, 0⟩, ⟨3/5, 0, 0, 4/5⟩⟩ := by
have h1 : rmseBasisErrorBetween1 ⟨⟨1, 0, 0⟩, ⟨1, 0, 0, 0⟩⟩
    ⟨⟨0, 0, 0⟩, ⟨3/5, 0, 0, 4/5⟩⟩ = Real.sqrt (91 / 75) := by
  unfold rmseBasisErrorBetween1 basisTransformRMSE composeT inverseT
  norm_num [Transform.applyT, rotateV, Vec.add, Vec.sub, Vec.neg, Vec.smul,
    Vec.dot, Vec.cross, Vec.magSq, Spin.mul, Spin.rev, Spin.bv]
have h2 : rmseBasisErrorBetween2 ⟨⟨1, 0, 0⟩, ⟨1, 0, 0, 0⟩⟩
    ⟨⟨0, 0, 0⟩, ⟨3/5, 0, 0, 4/5⟩⟩ = Real.sqrt (219 / 75) := by
  unfold rmseBasisErrorBetween2 rmseDiff basisTransformed
  norm_num [Transform.applyT, rotateV, Vec.add, Vec.sub, Vec.neg, Vec.smul,
    Vec.dot, Vec.cross, Vec.magSq, Spin.mul, Spin.rev, Spin.bv]
refine ⟨h1, h2, ?_⟩
rw [h1, h2]
exact ne_of_lt (Real.sqrt_lt_sqrt (by norm_num) (by norm_num))

/-! ## OPK extraction (Rotation.hpp).  The threshold constant tooNear is
the literal 1./1024./1024. of the source; engabra's nearlyEquals is
external and modelled as an absolute-tolerance comparison.  The
near-gimbal-lock branch of the source writes no angles and returns three
NaN values; in the embedding that branch is Option.none. -/

/-- Rotation.hpp tooNear: 1/1024/1024 = 2^-20. -/
noncomputable def tooNear : ℝ := 1 / 1024 / 1024

/-- Modelled from the spec: engabra::g3::nearlyEquals as an
absolute-tolerance comparison. -/
def nearlyEquals (x y tol : ℝ) : Prop := |x - y| ≤ tol

noncomputable instance (x y tol : ℝ) : Decidable (nearlyEquals x y tol) := by
unfold nearlyEquals
infer_instance

/-- Modelled from the spec: the photogrammetric atan2, as the complex
argument of x + iy. -/
noncomputable def atan2 (y x : ℝ) : ℝ := Complex.arg ⟨x, y⟩

/-- om::opkFrom (Rotation.hpp): omega-phi-kappa extraction; none when
the reconstructed rotation-matrix element r31 is within tooNear of
plus-or-minus one (the gimbal-lock guard), the three Eberly formula
angles otherwise. -/
noncomputable def opkFrom (spin : Spin) : Option (ℝ × ℝ × ℝ) :=
let r0 := spin.sc
let r1 := spin.b1
let r2 := spin.b2
let r3 := spin.b3
let r31 := 2 * (r1 * r3 + r0 * r2)
if nearlyEquals r31 1 tooNear ∨ nearlyEquals r31 (-1) tooNear then none
else
  let r11 := r0 * r0 + r1 * r1 - r2 * r2 - r3 * r3
  let r21 := 2 * (r1 * r2 - r0 * r3)
  let r32 := 2 * (r2 * r3 - r0 * r1)
  let r33 := r0 * r0 - r1 * r1 - r2 * r2 + r3 * r3
  some (-(atan2 r32 r33), -(Real.arcsin (-r31)), -(atan2 r21 r11))

/-- C8 counterexample: the claim says the extractor returns NaN exactly
when r31 is within 2^-18 of plus-or-minus one.  The unit spinor
(8, 465, 8, 464)/657 has r31 = 1 - 1/431649, strictly inside the 2^-18
band, yet the code's guard (tolerance 2^-20) is not triggered and three
angles are returned. -/
theorem claimC8_counterexample :
    ((8/657 : ℝ)^2 + (465/657 : ℝ)^2 + (8/657 : ℝ)^2 + (464/657 : ℝ)^2 = 1)
    ∧ |2 * ((465/657 : ℝ) * (464/657) + (8/657) * (8/657)) - 1| < 1 / 262144
    ∧ opkFrom ⟨8/657, 465/657, 8/657, 464/657⟩ ≠ none := by
refine ⟨by norm_num, by rw [abs_lt]; constructor <;> norm_num, ?_⟩
rw [opkFrom]
rw [if_neg]
· simp
· push_neg
  constructor <;> unfold nearlyEquals tooNear <;> rw [abs_le] <;> push_neg <;> norm_num

/-- C8 (amended): opkFrom returns no angles exactly when the
reconstructed r31 = 2(r1 r3 + r0 r2) is within tooNear = 2^-20 of +1 or
-1; for every other spinor it returns the three angles. -/
theorem claimC8_gimbalLock_threshold (s : Spin) :
    opkFrom s = none
      ↔ (|2 * (s.b1 * s.b3 + s.sc * s.b2) - 1| ≤ 1 / 1024 / 1024
         ∨ |2 * (s.b1 * s.b3 + s.sc * s.b2) + 1| ≤ 1 / 1024 / 1024) := by
rw [opkFrom]
split_ifs with h
· simp only [true_iff]
  unfold nearlyEquals tooNear at h
  rw [sub_neg_eq_add] at h
  exact h
· refine iff_of_false (by simp) ?_
  unfold nearlyEquals tooNear at h
  rw [sub_neg_eq_add] at h
  exact h

/-! ## Pairwise relative orientations (Orientation.hpp / Key.hpp).
`std::map` inputs are embedded as association lists whose keys are
strictly increasing in the C++ map order, which for SenKey = std::string
is lexicographic; `operator<(KeyPair, KeyPair)` is the std::pair
lexicographic order on (from, into). -/

abbrev SenKey := String

structure KeyPair where
theKeyFrom : SenKey
theKeyInto : SenKey
deriving DecidableEq, Repr

def KeyPair.lt (a b : KeyPair) : Prop :=
a.theKeyFrom < b.theKeyFrom
∨ (a.theKeyFrom = b.theKeyFrom ∧ a.theKeyInto < b.theKeyInto)

def relativeOrientationBetweens :
    List (SenKey × Transform) → List (KeyPair × Transform)
| [] => []
| (k1, o1) :: rest =>
  (rest.map fun p => (⟨k1, p.1⟩, composeT p.2 (inverseT o1)))
    ++ relativeOrientationBetweens rest

theorem succ_mul_self (n : ℕ) : (n + 1) * n = n * (n - 1) + 2 * n := by
  cases n with
  | zero => rfl
  | succ m =>
    simp only [Nat.succ_sub_one]
    ring

theorem rob_length (l : List (SenKey × Transform)) :
    2 * (relativeOrientationBetweens l).length = l.length * (l.length - 1) := by
  induction l with
  | nil => simp [relativeOrientationBetweens]
  | cons p rest ih =>
    obtain ⟨k1, o1⟩ := p
    simp only [relativeOrientationBetweens, List.length_append, List.length_map,
      List.length_cons, Nat.add_sub_cancel]
    have h := succ_mul_self rest.length
    omega

theorem rob_from_mem (l : List (SenKey × Transform)) (kp : KeyPair) (o : Transform)
    (h : (kp, o) ∈ relativeOrientationBetweens l) :
    kp.theKeyFrom ∈ l.map Prod.fst := by
  induction l with
  | nil => simp [relativeOrientationBetweens] at h
  | cons p rest ih =>
    obtain ⟨k1, o1⟩ := p
    simp only [relativeOrientationBetweens, List.mem_append, List.mem_map] at h
    rcases h with ⟨q, _, hq⟩ | h
    · injection hq with hkp hoo
      subst hkp
      simp
    · simp [ih h]

theorem rob_pairwise (l : List (SenKey × Transform))
    (hsort : l.Pairwise (fun p q => p.1 < q.1)) :
    (relativeOrientationBetweens l).Pairwise (fun e f => KeyPair.lt e.1 f.1) := by
  induction l with
  | nil => simp [relativeOrientationBetweens]
  | cons p rest ih =>
    obtain ⟨k1, o1⟩ := p
    rw [List.pairwise_cons] at hsort
    obtain ⟨hhead, htail⟩ := hsort
    simp only [relativeOrientationBetweens]
    rw [List.pairwise_append]
    refine ⟨?_, ih htail, ?_⟩
    · rw [List.pairwise_map]
      refine List.Pairwise.imp ?_ htail
      intro a b hab
      right
      exact ⟨rfl, hab⟩
    · intro a ha b hb
      simp only [List.mem_map] at ha
      obtain ⟨q, hq, rfl⟩ := ha
      have hbf : b.1.theKeyFrom ∈ rest.map Prod.fst := by
        obtain ⟨bkp, bo⟩ := b
        exact rob_from_mem rest bkp bo hb
      simp only [List.mem_map] at hbf
      obtain ⟨r, hr, hrf⟩ := hbf
      left
      show k1 < b.1.theKeyFrom
      rw [← hrf]
      exact hhead r hr

theorem rob_mem_iff (l : List (SenKey × Transform))
    (hsort : l.Pairwise (fun p q => p.1 < q.1)) (kp : KeyPair) (o : Transform) :
    (kp, o) ∈ relativeOrientationBetweens l
      ↔ ∃ o1 o2, (kp.theKeyFrom, o1) ∈ l ∧ (kp.theKeyInto, o2) ∈ l
          ∧ kp.theKeyFrom < kp.theKeyInto ∧ o = composeT o2 (inverseT o1) := by
  induction l with
  | nil => simp [relativeOrientationBetweens]
  | cons p rest ih =>
    obtain ⟨k1, o1⟩ := p
    rw [List.pairwise_cons] at hsort
    obtain ⟨hhead, htail⟩ := hsort
    simp only [relativeOrientationBetweens, List.mem_append, List.mem_map]
    constructor
    · rintro (⟨⟨k2, o2⟩, hq, hqe⟩ | h)
      · injection hqe with hkp hoo
        subst hkp
        subst hoo
        refine ⟨o1, o2, ?_, ?_, ?_, rfl⟩
        · exact List.mem_cons.mpr (Or.inl rfl)
        · exact List.mem_cons_of_mem _ hq
        · exact hhead (k2, o2) hq
      · obtain ⟨o1x, o2x, h1, h2, hlt, ho⟩ := (ih htail).mp h
        exact ⟨o1x, o2x, List.mem_cons_of_mem _ h1, List.mem_cons_of_mem _ h2, hlt, ho⟩
    · rintro ⟨o1x, o2x, h1, h2, hlt, ho⟩
      rcases List.mem_cons.mp h1 with he1 | h1r
      · injection he1 with hk1 ho1
        rcases List.mem_cons.mp h2 with he2 | h2r
        · injection he2 with hk2 ho2
          rw [hk1, hk2] at hlt
          exact absurd hlt (lt_irrefl _)
        · left
          refine ⟨(kp.theKeyInto, o2x), h2r, ?_⟩
          have hkpe : (⟨k1, kp.theKeyInto⟩ : KeyPair) = kp := by rw [← hk1]
          show ((⟨k1, kp.theKeyInto⟩ : KeyPair), composeT o2x (inverseT o1)) = (kp, o)
          rw [hkpe, ho, ho1]
      · rcases List.mem_cons.mp h2 with he2 | h2r
        · injection he2 with hk2 ho2
          have hlt2 : k1 < kp.theKeyFrom := hhead (kp.theKeyFrom, o1x) h1r
          rw [hk2] at hlt
          exact absurd (lt_trans hlt2 hlt) (lt_irrefl _)
        · right
          exact (ih htail).mpr ⟨o1x, o2x, h1r, h2r, hlt, ho⟩

/-- C6: on a sorted map of n absolute orientations,
relativeOrientationBetweens yields exactly n(n-1)/2 entries, iterated in
strictly increasing lexicographic KeyPair order, and an entry with key
(k1, k2) exists exactly for member keys k1 < k2, holding
ori(k2) * inverse(ori(k1)). -/
theorem claimC6_relative_orientations (l : List (SenKey × Transform))
    (hsort : l.Pairwise (fun p q => p.1 < q.1)) :
    (relativeOrientationBetweens l).length = l.length * (l.length - 1) / 2
    ∧ (relativeOrientationBetweens l).Pairwise (fun e f => KeyPair.lt e.1 f.1)
    ∧ ∀ kp o, ((kp, o) ∈ relativeOrientationBetweens l
        ↔ ∃ o1 o2, (kp.theKeyFrom, o1) ∈ l ∧ (kp.theKeyInto, o2) ∈ l
            ∧ kp.theKeyFrom < kp.theKeyInto ∧ o = composeT o2 (inverseT o1)) := by
refine ⟨?_, rob_pairwise l hsort, fun kp o => rob_mem_iff l hsort kp o⟩
have h := rob_length l
omega

/-- C6 witness: the sortedness hypothesis discharged on a concrete
three-sensor map. -/
theorem claimC6_relative_orientations_witness :
    (relativeOrientationBetweens
        [("A", ⟨⟨0, 0, 0⟩, ⟨1, 0, 0, 0⟩⟩), ("B", ⟨⟨1, 2, 3⟩, ⟨1, 0, 0, 0⟩⟩),
          ("C", ⟨⟨4, 5, 6⟩, ⟨0, 0, 0, 1⟩⟩)]).length
      = ([("A", (⟨⟨0, 0, 0⟩, ⟨1, 0, 0, 0⟩⟩ : Transform)),
          ("B", ⟨⟨1, 2, 3⟩, ⟨1, 0, 0, 0⟩⟩), ("C", ⟨⟨4, 5, 6⟩, ⟨0, 0, 0, 1⟩⟩)].length
          * ([("A", (⟨⟨0, 0, 0⟩, ⟨1, 0, 0, 0⟩⟩ : Transform)),
              ("B", ⟨⟨1, 2, 3⟩, ⟨1, 0, 0, 0⟩⟩),
              ("C", ⟨⟨4, 5, 6⟩, ⟨0, 0, 0, 1⟩⟩)].length - 1)) / 2
    ∧ (relativeOrientationBetweens
        [("A", ⟨⟨0, 0, 0⟩, ⟨1, 0, 0, 0⟩⟩), ("B", ⟨⟨1, 2, 3⟩, ⟨1, 0, 0, 0⟩⟩),
          ("C", ⟨⟨4, 5, 6⟩, ⟨0, 0, 0, 1⟩⟩)]).Pairwise
        (fun e f => KeyPair.lt e.1 f.1) := by
have h := claimC6_relative_orientations
  [("A", ⟨⟨0, 0, 0⟩, ⟨1, 0, 0, 0⟩⟩), ("B", ⟨⟨1, 2, 3⟩, ⟨1, 0, 0, 0⟩⟩),
    ("C", ⟨⟨4, 5, 6⟩, ⟨0, 0, 0, 1⟩⟩)]
  (by refine List.Pairwise.cons ?_ (List.Pairwise.cons ?_ ?_)
      · intro a ha
        rcases List.mem_cons.mp ha with rfl | ha
        · rw [show (("B", (⟨⟨1, 2, 3⟩, ⟨1, 0, 0, 0⟩⟩ : Transform)) :
              SenKey × Transform).1 = "B" from rfl, String.lt_iff_toList_lt]
          decide
        rcases List.mem_singleton.mp ha with rfl
        rw [show (("C", (⟨⟨4, 5, 6⟩, ⟨0, 0, 0, 1⟩⟩ : Transform)) :
            SenKey × Transform).1 = "C" from rfl, String.lt_iff_toList_lt]
        decide
      · intro a ha
        rcases List.mem_singleton.mp ha with rfl
        rw [show (("C", (⟨⟨4, 5, 6⟩, ⟨0, 0, 0, 1⟩⟩ : Transform)) :
            SenKey × Transform).1 = "C" from rfl, String.lt_iff_toList_lt]
        decide
      · exact List.pairwise_singleton _ _)
exact ⟨h.1, h.2.1⟩

/-! ## Relative orientations per convention (Combo.hpp) and the
two-sided search kernel (Analysis.hpp computeMaxErrors).  ConNumId is
the int64 Convention::numberEncoding value; ConOri pairs it with an
orientation.  The sensor maps are embedded as association lists (for
conventionROsWrtUseKey, which iterates the map) or as key-indexed
functions (for computeMaxErrors, which only does lookups that the C++
code assumes to succeed); std::set<SenKey> iteration is a key list.
The C++ assertExit on a PairConId mismatch and the out-of-bounds write
into the preallocated result vector are embedded as Option.none. -/

abbrev ConNumId := ℤ

abbrev ConOri := ConNumId × Transform

def buildROs (bases frees : List ConOri) : List ConOri :=
List.zipWith (fun b f => (b.1, composeT f.2 (inverseT b.2))) bases frees

def roLoop (bases : List ConOri) :
    List (SenKey × List ConOri) → Option (List (SenKey × List ConOri))
| [] => some []
| (k, frees) :: rest =>
  if bases.length = frees.length then
    (roLoop bases rest).map fun out => (k, buildROs bases frees) :: out
  else none

def conventionROsWrtUseKey (eoConOris : List (SenKey × List ConOri))
    (useKey : SenKey) : List (SenKey × List ConOri) :=
if eoConOris.isEmpty then []
else
  match eoConOris.find? fun p => p.1 == useKey with
  | none => []
  | some itBase =>
    match roLoop itBase.2 eoConOris with
    | some out => out
    | none => []

theorem buildROs_ids (bases frees : List ConOri)
    (h : bases.length = frees.length) :
    (buildROs bases frees).map Prod.fst = bases.map Prod.fst := by
  induction bases generalizing frees with
  | nil => simp [buildROs]
  | cons b bs ih =>
    cases frees with
    | nil => simp at h
    | cons f fs =>
      simp only [buildROs, List.zipWith_cons_cons, List.map_cons] at ih ⊢
      simp only [List.length_cons, Nat.add_right_cancel_iff] at h
      rw [ih fs h]

theorem buildROs_length (bases frees : List ConOri)
    (h : bases.length = frees.length) :
    (buildROs bases frees).length = bases.length := by
  simp [buildROs, List.length_zipWith]
  omega

theorem roLoop_none (bases : List ConOri) (l : List (SenKey × List ConOri))
    (p : SenKey × List ConOri) (hp : p ∈ l) (hlen : p.2.length ≠ bases.length) :
    roLoop bases l = none := by
  induction l with
  | nil => simp at hp
  | cons q rest ih =>
    obtain ⟨k, frees⟩ := q
    rcases List.mem_cons.mp hp with rfl | hp2
    · have hlen2 : frees.length ≠ bases.length := hlen
      simp only [roLoop]
      rw [if_neg (by omega)]
    · simp only [roLoop]
      split_ifs with hc
      · rw [ih hp2]
        rfl
      · rfl

theorem roLoop_some (bases : List ConOri) (l : List (SenKey × List ConOri))
    (h : ∀ p ∈ l, p.2.length = bases.length) :
    roLoop bases l = some (l.map fun p => (p.1, buildROs bases p.2)) := by
  induction l with
  | nil => rfl
  | cons q rest ih =>
    obtain ⟨k, frees⟩ := q
    have hq : frees.length = bases.length := h (k, frees) (List.mem_cons_self _ _)
    simp only [roLoop]
    rw [if_pos hq.symm]
    rw [ih fun p hp => h p (List.mem_cons_of_mem _ hp)]
    rfl

theorem conventionROs_allOrNothing (eo : List (SenKey × List ConOri))
    (useKey : SenKey) (bases : List ConOri)
    (hfind : eo.find? (fun p => p.1 == useKey) = some (useKey, bases)) :
    ((∃ p ∈ eo, p.2.length ≠ bases.length) →
        conventionROsWrtUseKey eo useKey = [])
    ∧ ((∀ p ∈ eo, p.2.length = bases.length) →
        conventionROsWrtUseKey eo useKey
            = eo.map fun p => (p.1, buildROs bases p.2)) := by
  have hne : eo.isEmpty = false := by
    cases eo
    · simp at hfind
    · rfl
  constructor
  · rintro ⟨p, hp, hlen⟩
    unfold conventionROsWrtUseKey
    rw [hne, hfind]
    simp only [Bool.false_eq_true, if_false]
    rw [roLoop_none bases eo p hp hlen]
  · intro hall
    unfold conventionROsWrtUseKey
    rw [hne, hfind]
    simp only [Bool.false_eq_true, if_false]
    rw [roLoop_some bases eo hall]

abbrev PairConId := ConNumId × ConNumId

abbrev ErrPairCon := ℝ × PairConId

def prodConOris (boxConOris indConOris : List ConOri) : List (ConOri × ConOri) :=
boxConOris.flatMap fun boxConOri => indConOris.map fun indConOri => (boxConOri, indConOri)

def pcidOf (q : ConOri × ConOri) : PairConId := (q.1.1, q.2.1)

noncomputable def rmseOf (q : ConOri × ConOri) : ℝ := rmseBasisErrorBetween2 q.1.2 q.2.2

noncomputable def rmsePairs (first : Bool) :
    List (ConOri × ConOri) → List ErrPairCon → Option (List ErrPairCon)
| [] => fun slots => some slots
| q :: ps => fun slots =>
  match slots with
  | [] => none
  | s :: ss =>
    if first then
      (rmsePairs first ps ss).map fun out => (rmseOf q, pcidOf q) :: out
    else
      if s.2 = pcidOf q then
        (rmsePairs first ps ss).map fun out => (max (rmseOf q) s.1, pcidOf q) :: out
      else none

theorem rmsePairs_nil (first : Bool) (slots : List ErrPairCon) :
    rmsePairs first [] slots = some slots := rfl

theorem rmsePairs_cons (first : Bool) (q : ConOri × ConOri)
    (ps : List (ConOri × ConOri)) (s : ErrPairCon) (ss : List ErrPairCon) :
    rmsePairs first (q :: ps) (s :: ss)
      = if first then
          (rmsePairs first ps ss).map fun out => (rmseOf q, pcidOf q) :: out
        else
          if s.2 = pcidOf q then
            (rmsePairs first ps ss).map fun out =>
              (max (rmseOf q) s.1, pcidOf q) :: out
          else none := rfl

noncomputable def computeMaxErrorsLoop (boxConROs indConROs : SenKey → List ConOri) :
    List SenKey → Bool → List ErrPairCon → Option (List ErrPairCon)
| [] => fun _ slots => some slots
| k :: ks => fun first slots =>
  (rmsePairs first (prodConOris (boxConROs k) (indConROs k)) slots).bind
    (computeMaxErrorsLoop boxConROs indConROs ks false)

noncomputable def computeMaxErrors (useSenKeys : List SenKey)
    (boxConROs indConROs : SenKey → List ConOri)
    (initSlots : List ErrPairCon) : Option (List ErrPairCon) :=
computeMaxErrorsLoop boxConROs indConROs useSenKeys true
  (initSlots.map fun _ => (0, (0, 0)))

theorem map_pair_eq_zipWith {α β γ : Type} (f : α → β) (g : α → γ) (l : List α) :
    (l.map fun q => (f q, g q))
      = List.zipWith (fun v pc => (v, pc)) (l.map f) (l.map g) := by
  induction l with
  | nil => rfl
  | cons q qs ih =>
    simp only [List.map_cons, List.zipWith_cons_cons]
    rw [ih]

theorem zipWith_getD {α β γ : Type} (f : α → β → γ) (l1 : List α) (l2 : List β)
    (d1 : α) (d2 : β) (n : ℕ) (h1 : n < l1.length) (h2 : n < l2.length) :
    (List.zipWith f l1 l2).getD n (f d1 d2) = f (l1.getD n d1) (l2.getD n d2) := by
  induction l1 generalizing l2 n with
  | nil => simp at h1
  | cons x xs ih =>
    cases l2 with
    | nil => simp at h2
    | cons y ys =>
      cases n with
      | zero => rfl
      | succ m =>
        simp only [List.zipWith_cons_cons, List.getD_cons_succ]
        exact ih ys m (by simpa using h1) (by simpa using h2)

theorem rmsePairs_first_eq (ps : List (ConOri × ConOri)) (slots : List ErrPairCon)
    (h : ps.length = slots.length) :
    rmsePairs true ps slots = some (ps.map fun q => (rmseOf q, pcidOf q)) := by
  induction ps generalizing slots with
  | nil =>
    cases slots with
    | nil => rfl
    | cons s ss => simp at h
  | cons q qs ih =>
    cases slots with
    | nil => simp at h
    | cons s ss =>
      rw [rmsePairs_cons, if_pos rfl, ih ss (by simpa using h)]
      rfl

theorem rmsePairs_max_eq (ps : List (ConOri × ConOri)) (vals : List ℝ)
    (hlen : (ps.map pcidOf).length = vals.length) :
    rmsePairs false ps (List.zipWith (fun v pc => (v, pc)) vals (ps.map pcidOf))
      = some (List.zipWith (fun v pc => (v, pc))
          (List.zipWith (fun q v => max (rmseOf q) v) ps vals) (ps.map pcidOf)) := by
  induction ps generalizing vals with
  | nil => simp [rmsePairs_nil]
  | cons q qs ih =>
    cases vals with
    | nil => simp at hlen
    | cons v vs =>
      simp only [List.map_cons, List.zipWith_cons_cons]
      rw [rmsePairs_cons]
      rw [if_neg (by simp), if_pos rfl]
      rw [ih vs (by simpa using hlen)]
      rfl

theorem computeMaxErrorsLoop_eq (boxConROs indConROs : SenKey → List ConOri)
    (pcidsU : List PairConId) (us : List SenKey) (vals : List ℝ)
    (hvals : vals.length = pcidsU.length)
    (hall : ∀ k ∈ us,
      (prodConOris (boxConROs k) (indConROs k)).map pcidOf = pcidsU) :
    computeMaxErrorsLoop boxConROs indConROs us false
        (List.zipWith (fun v pc => (v, pc)) vals pcidsU)
      = some (List.zipWith (fun v pc => (v, pc))
          (List.foldl (fun acc k =>
            List.zipWith (fun q v => max (rmseOf q) v)
              (prodConOris (boxConROs k) (indConROs k)) acc) vals us)
          pcidsU) := by
  induction us generalizing vals with
  | nil => simp [computeMaxErrorsLoop]
  | cons k ks ih =>
    have hk := hall k (List.mem_cons_self _ _)
    have hPk : (prodConOris (boxConROs k) (indConROs k)).length = pcidsU.length := by
      rw [← hk, List.length_map]
    simp only [computeMaxErrorsLoop, List.foldl_cons]
    have hre : List.zipWith (fun v pc => (v, pc)) vals pcidsU
        = List.zipWith (fun v pc => (v, pc)) vals
            ((prodConOris (boxConROs k) (indConROs k)).map pcidOf) := by
      rw [hk]
    rw [hre]
    rw [rmsePairs_max_eq _ _ (by rw [hk]; omega)]
    rw [Option.some_bind]
    have hre2 : List.zipWith (fun v pc => (v, pc))
          (List.zipWith (fun q v => max (rmseOf q) v)
            (prodConOris (boxConROs k) (indConROs k)) vals)
          ((prodConOris (boxConROs k) (indConROs k)).map pcidOf)
        = List.zipWith (fun v pc => (v, pc))
            (List.zipWith (fun q v => max (rmseOf q) v)
              (prodConOris (boxConROs k) (indConROs k)) vals) pcidsU := by
      rw [hk]
    rw [hre2]
    exact ih _ (by rw [List.length_zipWith]; omega)
      (fun k2 hk2 => hall k2 (List.mem_cons_of_mem _ hk2))

def dConOri : ConOri := (0, ⟨⟨0, 0, 0⟩, ⟨1, 0, 0, 0⟩⟩)

theorem zipWith_getD2 {α β γ : Type} (f : α → β → γ) (l1 : List α) (l2 : List β)
    (d : γ) (d1 : α) (d2 : β) (n : ℕ) (h1 : n < l1.length) (h2 : n < l2.length) :
    (List.zipWith f l1 l2).getD n d = f (l1.getD n d1) (l2.getD n d2) := by
  rw [List.getD_eq_getElem _ _ (by rw [List.length_zipWith]; omega),
    List.getElem_zipWith, List.getD_eq_getElem _ _ h1, List.getD_eq_getElem _ _ h2]

theorem foldl_max_getD (pp : SenKey → List (ConOri × ConOri)) (us : List SenKey)
    (vals : List ℝ) (n : ℕ) (hn : n < vals.length)
    (hP : ∀ k ∈ us, (pp k).length = vals.length) :
    (List.foldl (fun acc k =>
        List.zipWith (fun q v => max (rmseOf q) v) (pp k) acc) vals us).getD n 0
      = List.foldl (fun acc k => max (rmseOf ((pp k).getD n (dConOri, dConOri))) acc)
          (vals.getD n 0) us := by
  induction us generalizing vals with
  | nil => rfl
  | cons k ks ih =>
    simp only [List.foldl_cons]
    have hk := hP k (List.mem_cons_self _ _)
    have hlen2 : (List.zipWith (fun q v => max (rmseOf q) v) (pp k) vals).length
        = vals.length := by
      rw [List.length_zipWith]; omega
    rw [ih _ (by omega) (fun k2 h2 => by
      rw [hlen2]; exact hP k2 (List.mem_cons_of_mem _ h2))]
    rw [zipWith_getD2 _ _ _ _ (dConOri, dConOri) 0 n (by omega) hn]

theorem foldl_max_length (pp : SenKey → List (ConOri × ConOri)) (us : List SenKey)
    (vals : List ℝ) (hP : ∀ k ∈ us, (pp k).length = vals.length) :
    (List.foldl (fun acc k =>
        List.zipWith (fun q v => max (rmseOf q) v) (pp k) acc) vals us).length
      = vals.length := by
  induction us generalizing vals with
  | nil => rfl
  | cons k ks ih =>
    simp only [List.foldl_cons]
    have hk := hP k (List.mem_cons_self _ _)
    have hlen2 : (List.zipWith (fun q v => max (rmseOf q) v) (pp k) vals).length
        = vals.length := by
      rw [List.length_zipWith]; omega
    rw [ih _ (fun k2 h2 => by rw [hlen2]; exact hP k2 (List.mem_cons_of_mem _ h2)),
      hlen2]

theorem prodConOris_eq_sprod (bl il : List ConOri) : prodConOris bl il = bl ×ˢ il := rfl

theorem prodConOris_length (bl il : List ConOri) :
    (prodConOris bl il).length = bl.length * il.length := by
  rw [prodConOris_eq_sprod, List.length_product]

theorem prodConOris_map_pcid (bl il : List ConOri) :
    (prodConOris bl il).map pcidOf
      = (bl.map Prod.fst).flatMap fun b => (il.map Prod.fst).map fun i => (b, i) := by
  simp only [prodConOris, List.map_flatMap, List.map_map, List.flatMap_map]
  rfl

theorem computeMaxErrors_spec (u : SenKey) (us : List SenKey)
    (boxConROs indConROs : SenKey → List ConOri)
    (initSlots : List ErrPairCon) (nb ni : ℕ)
    (hbox : ∀ k ∈ u :: us, (boxConROs k).length = nb)
    (hind : ∀ k ∈ u :: us, (indConROs k).length = ni)
    (hidsB : ∀ k ∈ u :: us,
      (boxConROs k).map Prod.fst = (boxConROs u).map Prod.fst)
    (hidsI : ∀ k ∈ u :: us,
      (indConROs k).map Prod.fst = (indConROs u).map Prod.fst)
    (hslots : initSlots.length = nb * ni) :
    ∃ out, computeMaxErrors (u :: us) boxConROs indConROs initSlots = some out
      ∧ out.length = nb * ni
      ∧ ∀ i j, i < nb → j < ni →
          out.getD (i * ni + j) (0, (0, 0))
            = (List.foldl (fun acc k => max
                  (rmseBasisErrorBetween2 ((boxConROs k).getD i dConOri).2
                    ((indConROs k).getD j dConOri).2) acc)
                (rmseBasisErrorBetween2 ((boxConROs u).getD i dConOri).2
                  ((indConROs u).getD j dConOri).2) us
              , (((boxConROs u).getD i dConOri).1,
                  ((indConROs u).getD j dConOri).1)) := by
  have hPlen : ∀ k ∈ u :: us,
      (prodConOris (boxConROs k) (indConROs k)).length = nb * ni := by
    intro k hk
    rw [prodConOris_length, hbox k hk, hind k hk]
  have hPids : ∀ k ∈ u :: us,
      (prodConOris (boxConROs k) (indConROs k)).map pcidOf
        = (prodConOris (boxConROs u) (indConROs u)).map pcidOf := by
    intro k hk
    rw [prodConOris_map_pcid, prodConOris_map_pcid, hidsB k hk, hidsI k hk]
  set PU := prodConOris (boxConROs u) (indConROs u) with hPU
  have hPUlen : PU.length = nb * ni := hPlen u (List.mem_cons_self _ _)
  have hzeros : (initSlots.map fun _ => ((0 : ℝ), ((0 : ℤ), (0 : ℤ)))).length
      = nb * ni := by
    rw [List.length_map, hslots]
  have hfoldlen :
      (List.foldl (fun acc k =>
          List.zipWith (fun q v => max (rmseOf q) v)
            (prodConOris (boxConROs k) (indConROs k)) acc) (PU.map rmseOf) us).length
        = nb * ni := by
    rw [foldl_max_length _ _ _ (fun k hk => by
        rw [List.length_map, hPUlen]
        exact hPlen k (List.mem_cons_of_mem _ hk)),
      List.length_map, hPUlen]
  rw [computeMaxErrors]
  simp only [computeMaxErrorsLoop]
  rw [rmsePairs_first_eq PU _ (by rw [hzeros, hPUlen])]
  rw [Option.some_bind]
  rw [map_pair_eq_zipWith rmseOf pcidOf PU]
  rw [computeMaxErrorsLoop_eq boxConROs indConROs (PU.map pcidOf) us (PU.map rmseOf)
    (by rw [List.length_map, List.length_map])
    (fun k hk => hPids k (List.mem_cons_of_mem _ hk))]
  refine ⟨_, rfl, ?_, ?_⟩
  · rw [List.length_zipWith, hfoldlen, List.length_map, hPUlen]
    omega
  · intro i j hi hj
    have hni : 0 < ni := by omega
    have hn : i * ni + j < nb * ni := by
      have h1 : i + 1 ≤ nb := hi
      have h2 : (i + 1) * ni ≤ nb * ni := Nat.mul_le_mul_right ni h1
      rw [Nat.succ_mul] at h2
      omega
    rw [zipWith_getD2 _ _ _ _ 0 (0, 0) (i * ni + j)
      (by rw [hfoldlen]; exact hn)
      (by rw [List.length_map, hPUlen]; exact hn)]
    rw [foldl_max_getD _ _ _ _ (by rw [List.length_map, hPUlen]; exact hn)
      (fun k hk => by
        rw [List.length_map, hPUlen]
        exact hPlen k (List.mem_cons_of_mem _ hk))]
    rw [getD_map_of_lt rmseOf PU _ _ (dConOri, dConOri) (by rw [hPUlen]; exact hn)]
    rw [getD_map_of_lt pcidOf PU _ _ (dConOri, dConOri) (by rw [hPUlen]; exact hn)]
    have hdiv : ∀ m : ℕ, m = ni → (i * ni + j) / m = i := by
      intro m hm
      subst hm
      rw [Nat.add_comm, Nat.add_mul_div_right j i hni, Nat.div_eq_of_lt hj]
      omega
    have hmod : ∀ m : ℕ, m = ni → (i * ni + j) % m = j := by
      intro m hm
      subst hm
      rw [Nat.add_comm, Nat.add_mul_mod_self_right, Nat.mod_eq_of_lt hj]
    have hPUget : PU.getD (i * ni + j) (dConOri, dConOri)
        = ((boxConROs u).getD i dConOri, (indConROs u).getD j dConOri) := by
      rw [hPU, prodConOris_eq_sprod]
      rw [product_getD _ _ _ _ _ (by
        rw [hbox u (List.mem_cons_self _ _), hind u (List.mem_cons_self _ _)]
        exact hn)]
      rw [hdiv _ (hind u (List.mem_cons_self _ _)),
        hmod _ (hind u (List.mem_cons_self _ _))]
    have hPkget : ∀ k ∈ us, (prodConOris (boxConROs k) (indConROs k)).getD
          (i * ni + j) (dConOri, dConOri)
        = ((boxConROs k).getD i dConOri, (indConROs k).getD j dConOri) := by
      intro k hk
      rw [prodConOris_eq_sprod]
      rw [product_getD _ _ _ _ _ (by
        rw [hbox k (List.mem_cons_of_mem _ hk), hind k (List.mem_cons_of_mem _ hk)]
        exact hn)]
      rw [hdiv _ (hind k (List.mem_cons_of_mem _ hk)),
        hmod _ (hind k (List.mem_cons_of_mem _ hk))]
    rw [hPUget]
    rw [List.foldl_ext _
      (fun acc k => max (rmseBasisErrorBetween2 ((boxConROs k).getD i dConOri).2
        ((indConROs k).getD j dConOri).2) acc) _
      (fun acc k hk => by rw [hPkget k hk]; rfl)]
    rfl

/-- C10: conventionROsWrtUseKey is all-or-nothing.  With the base key
present, a single length mismatch against the base vector empties the
whole result (the C++ clears accumulated results and breaks); with all
lengths equal, the output has one entry per input key (same key order),
each output vector has the base vector's length and carries the base
vector's convention ids through unchanged slot by slot. -/
theorem claimC10_allOrNothing (eoConOris : List (SenKey × List ConOri))
    (useKey : SenKey) (bases : List ConOri)
    (hfind : eoConOris.find? (fun p => p.1 == useKey) = some (useKey, bases)) :
    ((∃ p ∈ eoConOris, p.2.length ≠ bases.length) →
        conventionROsWrtUseKey eoConOris useKey = [])
    ∧ ((∀ p ∈ eoConOris, p.2.length = bases.length) →
        (conventionROsWrtUseKey eoConOris useKey).map Prod.fst
            = eoConOris.map Prod.fst
        ∧ ∀ q ∈ conventionROsWrtUseKey eoConOris useKey,
            q.2.length = bases.length ∧ q.2.map Prod.fst = bases.map Prod.fst) := by
obtain ⟨hA, hB⟩ := conventionROs_allOrNothing eoConOris useKey bases hfind
refine ⟨hA, fun hall => ?_⟩
rw [hB hall]
constructor
· rw [List.map_map]
  rfl
· intro q hq
  simp only [List.mem_map] at hq
  obtain ⟨p, hp, rfl⟩ := hq
  have hl : p.2.length = bases.length := hall p hp
  exact ⟨by rw [buildROs_length bases p.2 hl.symm],
    buildROs_ids bases p.2 hl.symm⟩

/-- C10 witness: the base-key lookup hypothesis discharged on a concrete
two-sensor map whose vectors all have the base length. -/
theorem claimC10_allOrNothing_witness :
    ((∃ p ∈ [("A", [((1 : ℤ), (⟨⟨0, 0, 0⟩, ⟨1, 0, 0, 0⟩⟩ : Transform))]),
              ("B", [((1 : ℤ), (⟨⟨2, 0, 0⟩, ⟨1, 0, 0, 0⟩⟩ : Transform))])],
        p.2.length ≠ [((1 : ℤ), (⟨⟨0, 0, 0⟩, ⟨1, 0, 0, 0⟩⟩ : Transform))].length) →
      conventionROsWrtUseKey
          [("A", [((1 : ℤ), (⟨⟨0, 0, 0⟩, ⟨1, 0, 0, 0⟩⟩ : Transform))]),
            ("B", [((1 : ℤ), (⟨⟨2, 0, 0⟩, ⟨1, 0, 0, 0⟩⟩ : Transform))])] "A" = [])
    ∧ ((∀ p ∈ [("A", [((1 : ℤ), (⟨⟨0, 0, 0⟩, ⟨1, 0, 0, 0⟩⟩ : Transform))]),
              ("B", [((1 : ℤ), (⟨⟨2, 0, 0⟩, ⟨1, 0, 0, 0⟩⟩ : Transform))])],
        p.2.length = [((1 : ℤ), (⟨⟨0, 0, 0⟩, ⟨1, 0, 0, 0⟩⟩ : Transform))].length) →
        (conventionROsWrtUseKey
            [("A", [((1 : ℤ), (⟨⟨0, 0, 0⟩, ⟨1, 0, 0, 0⟩⟩ : Transform))]),
              ("B", [((1 : ℤ), (⟨⟨2, 0, 0⟩, ⟨1, 0, 0, 0⟩⟩ : Transform))])] "A").map
            Prod.fst
          = [("A", [((1 : ℤ), (⟨⟨0, 0, 0⟩, ⟨1, 0, 0, 0⟩⟩ : Transform))]),
              ("B", [((1 : ℤ), (⟨⟨2, 0, 0⟩, ⟨1, 0, 0, 0⟩⟩ : Transform))])].map Prod.fst
        ∧ ∀ q ∈ conventionROsWrtUseKey
            [("A", [((1 : ℤ), (⟨⟨0, 0, 0⟩, ⟨1, 0, 0, 0⟩⟩ : Transform))]),
              ("B", [((1 : ℤ), (⟨⟨2, 0, 0⟩, ⟨1, 0, 0, 0⟩⟩ : Transform))])] "A",
            q.2.length = [((1 : ℤ), (⟨⟨0, 0, 0⟩, ⟨1, 0, 0, 0⟩⟩ : Transform))].length
            ∧ q.2.map Prod.fst
              = [((1 : ℤ), (⟨⟨0, 0, 0⟩, ⟨1, 0, 0, 0⟩⟩ : Transform))].map Prod.fst) :=
claimC10_allOrNothing _ "A" _ rfl

/-- C5: for a nonempty sensor key list, computeMaxErrors fills the output
slot i*ni+j (box conventions outer, ind conventions inner) with the
maximum over all sensors of the basis-RMSE between that sensor's box RO
at box slot i and ind RO at ind slot j: the first sensor's RMSE seeds
the fold and every later sensor takes max with the accumulated value.
The slot also records the (box id, ind id) pair of the base sensor. -/
theorem claimC5_computeMaxErrors (u : SenKey) (us : List SenKey)
    (boxConROs indConROs : SenKey → List ConOri)
    (initSlots : List ErrPairCon) (nb ni : ℕ)
    (hbox : ∀ k ∈ u :: us, (boxConROs k).length = nb)
    (hind : ∀ k ∈ u :: us, (indConROs k).length = ni)
    (hidsB : ∀ k ∈ u :: us,
      (boxConROs k).map Prod.fst = (boxConROs u).map Prod.fst)
    (hidsI : ∀ k ∈ u :: us,
      (indConROs k).map Prod.fst = (indConROs u).map Prod.fst)
    (hslots : initSlots.length = nb * ni) :
    ∃ out, computeMaxErrors (u :: us) boxConROs indConROs initSlots = some out
      ∧ out.length = nb * ni
      ∧ ∀ i j, i < nb → j < ni →
          out.getD (i * ni + j) (0, (0, 0))
            = (List.foldl (fun acc k => max
                  (rmseBasisErrorBetween2 ((boxConROs k).getD i dConOri).2
                    ((indConROs k).getD j dConOri).2) acc)
                (rmseBasisErrorBetween2 ((boxConROs u).getD i dConOri).2
                  ((indConROs u).getD j dConOri).2) us
              , (((boxConROs u).getD i dConOri).1,
                  ((indConROs u).getD j dConOri).1)) :=
computeMaxErrors_spec u us boxConROs indConROs initSlots nb ni
  hbox hind hidsB hidsI hslots

/-- C5 witness: two sensors with constant convention-orientation tables
(two box slots, one ind slot), all hypotheses discharged definitionally. -/
theorem claimC5_computeMaxErrors_witness :
    ∃ out, computeMaxErrors ["A", "B"]
        (fun _ => [((1 : ℤ), ⟨⟨0, 0, 0⟩, ⟨1, 0, 0, 0⟩⟩),
                   ((2 : ℤ), ⟨⟨1, 0, 0⟩, ⟨1, 0, 0, 0⟩⟩)])
        (fun _ => [((7 : ℤ), ⟨⟨0, 1, 0⟩, ⟨1, 0, 0, 0⟩⟩)])
        [(0, (0, 0)), (0, (0, 0))] = some out
      ∧ out.length = 2 * 1
      ∧ ∀ i j, i < 2 → j < 1 →
          out.getD (i * 1 + j) (0, (0, 0))
            = (List.foldl (fun acc k => max
                  (rmseBasisErrorBetween2
                    (([((1 : ℤ), (⟨⟨0, 0, 0⟩, ⟨1, 0, 0, 0⟩⟩ : Transform)),
                       ((2 : ℤ), ⟨⟨1, 0, 0⟩, ⟨1, 0, 0, 0⟩⟩)]).getD i dConOri).2
                    (([((7 : ℤ), (⟨⟨0, 1, 0⟩, ⟨1, 0, 0, 0⟩⟩ : Transform))]).getD
                      j dConOri).2) acc)
                (rmseBasisErrorBetween2
                  (([((1 : ℤ), (⟨⟨0, 0, 0⟩, ⟨1, 0, 0, 0⟩⟩ : Transform)),
                     ((2 : ℤ), ⟨⟨1, 0, 0⟩, ⟨1, 0, 0, 0⟩⟩)]).getD i dConOri).2
                  (([((7 : ℤ), (⟨⟨0, 1, 0⟩, ⟨1, 0, 0, 0⟩⟩ : Transform))]).getD
                    j dConOri).2) ["B"]
              , ((([((1 : ℤ), (⟨⟨0, 0, 0⟩, ⟨1, 0, 0, 0⟩⟩ : Transform)),
                    ((2 : ℤ), ⟨⟨1, 0, 0⟩, ⟨1, 0, 0, 0⟩⟩)]).getD i dConOri).1,
                  (([((7 : ℤ), (⟨⟨0, 1, 0⟩, ⟨1, 0, 0, 0⟩⟩ : Transform))]).getD
                    j dConOri).1)) :=
claimC5_computeMaxErrors "A" ["B"] _ _ _ 2 1
  (fun _ _ => rfl) (fun _ _ => rfl) (fun _ _ => rfl) (fun _ _ => rfl) rfl

end OriMania
